import Mathlib

/-!
Verification of the date-extraction engine of `rename-files.mjs`
(normalize-filename-dates).

The script scans file names for date substrings written in many
conventions, normalizes them to a `yyyy-mm-dd` prefix and validates the
extracted triple against the real Gregorian calendar.  This file gives a
shallow embedding of the relevant functions — the pattern-recognizer
chain, the shared normalization helpers and the calendar validation —
as executable Lean definitions over `List Char` / `String`, together
with theorems settling the specification claims.

JavaScript machine integers do not overflow on the small values involved
(years, months, days), so `Nat` faithfully models the arithmetic.  The
script's `currentYear` (`new Date().getFullYear()`) is a run-time input;
every definition that consults it takes it as an explicit parameter `cy`.
-/

/-! ## Basic character and number helpers -/

/-- The decimal digit character for `n < 10` (used to embed JS
`Number.prototype.toString` for the year values the script prints). -/
def digitChar : Nat → Char
  | 0 => '0' | 1 => '1' | 2 => '2' | 3 => '3' | 4 => '4'
  | 5 => '5' | 6 => '6' | 7 => '7' | 8 => '8' | 9 => '9'
  | _ => '*'

/-- Numeric value of a decimal digit character. -/
def digitVal (c : Char) : Nat := c.toNat - '0'.toNat

/-- Decimal value of a digit list, most significant first — the
accumulation order of JS `parseInt` over the consumed digits. -/
def digitsToNat (l : List Char) : Nat :=
  l.foldl (fun n c => n * 10 + digitVal c) 0

/-- JS `parseInt(s, 10)`: consume the leading run of decimal digits; if
there is none the result is `NaN`, embedded as `none`.  (The script only
ever applies it to digit strings produced by its own regex captures, so
sign/whitespace handling is irrelevant.) -/
def jsParseInt (s : String) : Option Nat :=
  let ds := s.data.takeWhile Char.isDigit
  if ds.isEmpty then none else some (digitsToNat ds)

/-- Reversed decimal digit list of `n` (least significant first), with
explicit fuel so that the definition is structural and kernel-reducible.
`natToRevDigits` below instantiates the fuel sufficiently. -/
def natToRevDigitsAux : Nat → Nat → List Char
  | 0, _ => []
  | fuel + 1, n => if n = 0 then [] else digitChar (n % 10) :: natToRevDigitsAux fuel (n / 10)

/-- Reversed decimal digit list of `n`. -/
def natToRevDigits (n : Nat) : List Char := natToRevDigitsAux n n

/-- JS `Number.prototype.toString` for the natural numbers the script
prints (years): the decimal representation. -/
def natToString (n : Nat) : String :=
  if n = 0 then "0" else ⟨(natToRevDigits n).reverse⟩

theorem natToRevDigitsAux_zero (f : Nat) : natToRevDigitsAux f 0 = [] := by
  cases f <;> rfl

theorem natToRevDigitsAux_congr : ∀ n f₁ f₂, n ≤ f₁ → n ≤ f₂ →
    natToRevDigitsAux f₁ n = natToRevDigitsAux f₂ n := by
  intro n
  induction n using Nat.strong_induction_on with
  | _ n ih =>
    intro f₁ f₂ h1 h2
    by_cases hn : n = 0
    · subst hn; rw [natToRevDigitsAux_zero, natToRevDigitsAux_zero]
    · obtain ⟨g₁, rfl⟩ : ∃ g, f₁ = g + 1 := ⟨f₁ - 1, by omega⟩
      obtain ⟨g₂, rfl⟩ : ∃ g, f₂ = g + 1 := ⟨f₂ - 1, by omega⟩
      show (if n = 0 then [] else digitChar (n % 10) :: natToRevDigitsAux g₁ (n / 10))
        = (if n = 0 then [] else digitChar (n % 10) :: natToRevDigitsAux g₂ (n / 10))
      rw [if_neg hn, if_neg hn]
      have hd : n / 10 < n := Nat.div_lt_self (Nat.pos_of_ne_zero hn) (by omega)
      rw [ih (n / 10) hd g₁ g₂ (by omega) (by omega)]

theorem natToRevDigits_step {n : Nat} (h : n ≠ 0) :
    natToRevDigits n = digitChar (n % 10) :: natToRevDigits (n / 10) := by
  unfold natToRevDigits
  obtain ⟨m, rfl⟩ : ∃ m, n = m + 1 := ⟨n - 1, by omega⟩
  show (if m + 1 = 0 then [] else digitChar ((m + 1) % 10) :: natToRevDigitsAux m ((m + 1) / 10))
    = digitChar ((m + 1) % 10) :: natToRevDigitsAux ((m + 1) / 10) ((m + 1) / 10)
  rw [if_neg (Nat.succ_ne_zero m)]
  have hd : (m + 1) / 10 < m + 1 := Nat.div_lt_self (Nat.succ_pos m) (by omega)
  rw [natToRevDigitsAux_congr ((m + 1) / 10) m ((m + 1) / 10) (by omega) (by omega)]

theorem digitChar_isDigit {m : Nat} (h : m < 10) : (digitChar m).isDigit = true := by
  interval_cases m <;> decide

theorem digitVal_digitChar {m : Nat} (h : m < 10) : digitVal (digitChar m) = m := by
  interval_cases m <;> decide

theorem natToRevDigits_all_digits : ∀ n, (natToRevDigits n).all Char.isDigit = true := by
  intro n
  induction n using Nat.strong_induction_on with
  | _ n ih =>
    by_cases h : n = 0
    · subst h; decide
    · rw [natToRevDigits_step h]
      simp only [List.all_cons, Bool.and_eq_true]
      exact ⟨digitChar_isDigit (Nat.mod_lt n (by omega)),
        ih (n / 10) (Nat.div_lt_self (Nat.pos_of_ne_zero h) (by omega))⟩

theorem natToRevDigits_length_four {n : Nat} (h1 : 1000 ≤ n) (h2 : n ≤ 9999) :
    (natToRevDigits n).length = 4 := by
  rw [natToRevDigits_step (by omega), natToRevDigits_step (by omega : n / 10 ≠ 0),
    natToRevDigits_step (by omega : n / 10 / 10 ≠ 0),
    natToRevDigits_step (by omega : n / 10 / 10 / 10 ≠ 0)]
  have : n / 10 / 10 / 10 / 10 = 0 := by omega
  rw [this]
  rfl

theorem natToString_four_digits {n : Nat} (h1 : 1000 ≤ n) (h2 : n ≤ 9999) :
    (natToString n).data.length = 4 ∧ (natToString n).data.all Char.isDigit = true := by
  unfold natToString
  rw [if_neg (by omega : ¬ n = 0)]
  refine ⟨?_, ?_⟩
  · show (natToRevDigits n).reverse.length = 4
    rw [List.length_reverse]; exact natToRevDigits_length_four h1 h2
  · show (natToRevDigits n).reverse.all Char.isDigit = true
    rw [List.all_reverse]; exact natToRevDigits_all_digits n

theorem digitsToNat_lt : ∀ (l : List Char) (a : Nat), l.all Char.isDigit = true →
    l.foldl (fun n c => n * 10 + digitVal c) a < (a + 1) * 10 ^ l.length := by
  intro l
  induction l with
  | nil => intro a _; simp
  | cons c cs ih =>
    intro a h
    simp only [List.all_cons, Bool.and_eq_true] at h
    have hv : digitVal c ≤ 9 := by
      have hb := h.1
      unfold Char.isDigit at hb
      simp only [Bool.and_eq_true, decide_eq_true_eq] at hb
      have h57 : c.toNat ≤ 57 := hb.2
      have h48 : 48 ≤ c.toNat := hb.1
      have h0 : '0'.toNat = 48 := rfl
      unfold digitVal
      omega
    have := ih (a * 10 + digitVal c) h.2
    calc List.foldl (fun n c => n * 10 + digitVal c) (a * 10 + digitVal c) cs
        < (a * 10 + digitVal c + 1) * 10 ^ cs.length := this
      _ ≤ ((a + 1) * 10) * 10 ^ cs.length := by
          have : a * 10 + digitVal c + 1 ≤ (a + 1) * 10 := by omega
          exact Nat.mul_le_mul_right _ this
      _ = (a + 1) * 10 ^ (c :: cs).length := by
          simp [List.length_cons]; ring

theorem digitsToNat_lt_pow {l : List Char} (h : l.all Char.isDigit = true) :
    digitsToNat l < 10 ^ l.length := by
  have := digitsToNat_lt l 0 h
  simpa [digitsToNat] using this

theorem takeWhile_of_all {p : Char → Bool} :
    ∀ l : List Char, l.all p = true → l.takeWhile p = l := by
  intro l h
  induction l with
  | nil => rfl
  | cons c cs ih =>
    simp only [List.all_cons, Bool.and_eq_true] at h
    rw [List.takeWhile_cons, if_pos h.1, ih h.2]

theorem jsParseInt_of_digits {l : List Char} (hne : l ≠ []) (hd : l.all Char.isDigit = true) :
    jsParseInt ⟨l⟩ = some (digitsToNat l) := by
  unfold jsParseInt
  rw [show (String.mk l).data = l from rfl, takeWhile_of_all l hd]
  cases l with
  | nil => exact absurd rfl hne
  | cons c cs => rfl

/-! ## Calendar validation (`isValidDate`, lines 741–761)

`isValidDate` parses the three strings, range-checks them
(`1900 ≤ y ≤ currentYear`, month index in `0..11`, day in `1..31`) and
then constructs `new Date(y, m, d)` and requires the year/month/day to
round-trip exactly, which rejects day overflow that the `Date`
constructor would silently normalize into the following month.

`dateNormalize` embeds that normalization of the JS `Date` constructor
for the range-checked inputs (month `1..12` here 1-based, day `1..31`):
an overflowing day is carried into the following month, and month 13
into the next year.  A day ≤ 31 overflows any month by at most 3 days,
so the fuel of 4 is ample. -/

def isLeapYear (y : Nat) : Bool :=
  y % 4 == 0 && (y % 100 != 0 || y % 400 == 0)

/-- Days in month `m` (1-based) of year `y`, as the JS `Date` object
computes them (proleptic Gregorian). -/
def daysInMonth (y m : Nat) : Nat :=
  if m = 2 then (if isLeapYear y then 29 else 28)
  else if m = 4 ∨ m = 6 ∨ m = 9 ∨ m = 11 then 30 else 31

def dateNormalize : Nat → Nat → Nat → Nat → Nat × Nat × Nat
  | 0, y, m, d => (y, m, d)
  | fuel + 1, y, m, d =>
    if 12 < m then dateNormalize fuel (y + 1) (m - 12) d
    else if daysInMonth y m < d then dateNormalize fuel y (m + 1) (d - daysInMonth y m)
    else (y, m, d)

/-- `isValidDate(year, month, day)` of `rename-files.mjs` (lines
741–761).  The JS code computes `m0 = parseInt(month, 10) - 1` and
checks `m0 < 0 || m0 > 11`; with the 1-based month `m` kept as a `Nat`
this is exactly `m < 1 || 12 < m`.  The final `Date` round-trip check
compares the normalized date with the input triple. -/
def isValidDate (cy : Nat) (year month day : String) : Bool :=
  match jsParseInt year, jsParseInt month, jsParseInt day with
  | some y, some m, some d =>
    if y < 1900 || cy < y || m < 1 || 12 < m || d < 1 || 31 < d then false
    else dateNormalize 4 y m d == (y, m, d)
  | _, _, _ => false

/-- The specification's notion of a real Gregorian date: month in range
and the day within the month's actual length. -/
def isRealGregorianDate (y m d : Nat) : Prop :=
  1 ≤ m ∧ m ≤ 12 ∧ 1 ≤ d ∧ d ≤ daysInMonth y m

instance : DecidablePred fun p : Nat × Nat × Nat => isRealGregorianDate p.1 p.2.1 p.2.2 :=
  fun _ => by unfold isRealGregorianDate; infer_instance

theorem daysInMonth_le_31 (y m : Nat) : daysInMonth y m ≤ 31 := by
  unfold daysInMonth
  split
  · split <;> omega
  · split <;> omega

theorem daysInMonth_ge_28 (y m : Nat) : 28 ≤ daysInMonth y m := by
  unfold daysInMonth
  split
  · split <;> omega
  · split <;> omega

theorem dateNormalize_succ (fuel y m d : Nat) :
    dateNormalize (fuel + 1) y m d =
      if 12 < m then dateNormalize fuel (y + 1) (m - 12) d
      else if daysInMonth y m < d then dateNormalize fuel y (m + 1) (d - daysInMonth y m)
      else (y, m, d) := rfl

theorem dateNormalize_id_iff {y m d : Nat} (hm1 : 1 ≤ m) (hm2 : m ≤ 12)
    (hd1 : 1 ≤ d) (hd2 : d ≤ 31) :
    dateNormalize 4 y m d = (y, m, d) ↔ d ≤ daysInMonth y m := by
  constructor
  · intro h
    by_contra hlt
    push_neg at hlt
    have h28 := daysInMonth_ge_28 y m
    have h28' := daysInMonth_ge_28 y (m + 1)
    have h31 : daysInMonth (y + 1) (12 + 1 - 12) = 31 := by unfold daysInMonth; norm_num
    rw [dateNormalize_succ, if_neg (by omega), if_pos hlt] at h
    by_cases hm12 : m = 12
    · subst hm12
      rw [dateNormalize_succ, if_pos (by omega), dateNormalize_succ,
        if_neg (by omega), if_neg (by omega)] at h
      have := congrArg Prod.fst h
      simp at this
    · rw [dateNormalize_succ, if_neg (by omega), if_neg (by omega)] at h
      have := congrArg (fun p => p.2.1) h
      simp at this
  · intro h
    rw [dateNormalize_succ, if_neg (by omega), if_neg (by omega)]

/--
**C1.**  For every triple of numeric strings with `1900 ≤ year ≤
currentYear`, the calendar validation `isValidDate` returns `true` iff
the triple denotes a real Gregorian date; in particular month 13, day 0,
February 30 and any overflowing day (e.g. day 32) are rejected rather
than silently rolled into the next month.
-/
theorem isValidDate_iff_realGregorian (cy : Nat) (ys ms ds : String) (y m d : Nat)
    (hy : jsParseInt ys = some y) (hm : jsParseInt ms = some m)
    (hd : jsParseInt ds = some d) (h1900 : 1900 ≤ y) (hcy : y ≤ cy) :
    isValidDate cy ys ms ds = true ↔ isRealGregorianDate y m d := by
  unfold isValidDate
  rw [hy, hm, hd]
  dsimp only
  by_cases hrange : m < 1 ∨ 12 < m ∨ d < 1 ∨ 31 < d
  · rw [if_pos (by simp only [Bool.or_eq_true, decide_eq_true_eq]; omega)]
    constructor
    · intro h; exact absurd h (by decide)
    · unfold isRealGregorianDate
      intro ⟨c1, c2, c3, c4⟩
      have := daysInMonth_le_31 y m
      omega
  · push_neg at hrange
    obtain ⟨r1, r2, r3, r4⟩ := hrange
    rw [if_neg (by simp only [Bool.or_eq_true, decide_eq_true_eq]; omega)]
    rw [beq_iff_eq, dateNormalize_id_iff (by omega) (by omega) (by omega) (by omega)]
    unfold isRealGregorianDate
    omega

/-- Witness for C1 at a concrete point: the leap day 2024-02-29 is
accepted (with `currentYear = 2025`), via the theorem itself. -/
theorem isValidDate_iff_realGregorian_witness :
    isValidDate 2025 "2024" "02" "29" = true :=
  (isValidDate_iff_realGregorian 2025 "2024" "02" "29" 2024 2 29
    (by decide) (by decide) (by decide) (by decide) (by decide)).mpr
    (by unfold isRealGregorianDate; refine ⟨by omega, by omega, by omega, by decide⟩)

/-! ## Two-digit-year expansion (`normalizeYear`, lines 54–67)

`normalizeYear(shortYear)` returns the argument unchanged unless it has
exactly two characters; otherwise it parses it, prefers the `2000 + yy`
reading and falls back to `1900 + yy` whenever the former lies in the
future relative to `currentYear` — a rolling pivot, not a fixed cutoff.
A `NaN` parse would propagate to the string `"NaN"` in JS. -/

def normalizeYear (cy : Nat) (shortYear : String) : String :=
  if shortYear.length ≠ 2 then shortYear
  else
    match jsParseInt shortYear with
    | none => "NaN"
    | some year => if 2000 + year > cy then natToString (1900 + year) else natToString (2000 + year)

/--
**C2.**  For every two-character digit string, `normalizeYear` returns
the decimal string of `2000 + yy` when `2000 + yy ≤ currentYear` and of
`1900 + yy` otherwise — a rolling pivot relative to the current year,
not a fixed cutoff.
-/
theorem normalizeYear_pivot (cy : Nat) (s : String) (v : Nat)
    (hlen : s.length = 2) (_hdig : s.data.all Char.isDigit = true)
    (hv : jsParseInt s = some v) :
    normalizeYear cy s =
      if 2000 + v ≤ cy then natToString (2000 + v) else natToString (1900 + v) := by
  unfold normalizeYear
  rw [if_neg (by omega), hv]
  dsimp only
  by_cases hle : 2000 + v ≤ cy
  · rw [if_neg (by omega), if_pos hle]
  · rw [if_pos (by omega), if_neg hle]

/-- Witness for C2: `"99"` expands to `"1999"` with `currentYear = 2025`
(current year below 2099), via the theorem itself. -/
theorem normalizeYear_pivot_witness : normalizeYear 2025 "99" = "1999" := by
  have h := normalizeYear_pivot 2025 "99" 99 (by decide) (by decide) (by decide)
  rw [h]
  decide

/-! ## Regex-matching combinators

Each recognizer of the script is a JS regex search.  The regexes
involved use only literals, digit classes with bounded counted
repetition, small character classes with `+`/`*`, ordered alternation of
the month-name vocabulary and optional groups, so their JS semantics
(leftmost match, greedy with backtracking, alternation in written order)
is embedded directly by the combinators below.

A matcher takes the current suffix of the subject and returns
`(consumed, remainder, captures)` for the first (backtracking-ordered)
way the pattern matches at this position, or `none`.  `scanFirst` tries
a matcher at every position left to right, returning additionally the
prefix before the match — the leftmost-match rule. -/

/-- JS whitespace class `\s` restricted to the ASCII whitespace
characters (file names in scope contain no exotic Unicode spaces). -/
def isSpaceJS (c : Char) : Bool :=
  c == ' ' || c == '\t' || c == '\n' || c == '\r' || c == '\x0b' || c == '\x0c'

/-- Lower-casing as JS `toLowerCase` / the regex `i` flag canonicalize
the characters appearing in the month vocabulary (ASCII letters and the
German umlauts). -/
def toLowerJS (c : Char) : Char :=
  if 65 ≤ c.toNat ∧ c.toNat ≤ 90 then Char.ofNat (c.toNat + 32)
  else if c = 'Ä' then 'ä' else if c = 'Ö' then 'ö' else if c = 'Ü' then 'ü' else c

/-- JS regex word character `\w` (for the `\b` boundaries of the bare
year search in `extractPartialDate`). -/
def isWordCharJS (c : Char) : Bool :=
  c.isDigit || (97 ≤ c.toNat && c.toNat ≤ 122) || (65 ≤ c.toNat && c.toNat ≤ 90) || c == '_'

/-- Matches the empty pattern (end of a regex). -/
def mEnd : List Char → Option (List Char × List Char × Unit) :=
  fun s => some ([], s, ())

/-- Matches a single literal character, then continues with `k`. -/
def mChar (ch : Char) (k : List Char → Option (List Char × List Char × γ)) :
    List Char → Option (List Char × List Char × γ) := fun s =>
  match s with
  | [] => none
  | c :: cs =>
    if c = ch then
      match k cs with
      | some (con, rest, g) => some (c :: con, rest, g)
      | none => none
    else none

/-- Consume exactly `n` decimal digits. -/
def takeDigitsN : Nat → List Char → Option (List Char × List Char)
  | 0, s => some ([], s)
  | _ + 1, [] => none
  | n + 1, c :: cs =>
    if c.isDigit then
      match takeDigitsN n cs with
      | some (ds, r) => some (c :: ds, r)
      | none => none
    else none

/-- `\d{n}`: exactly `n` digits (captured), then `k`. -/
def mDigitsExact (n : Nat) (k : List Char → Option (List Char × List Char × γ)) :
    List Char → Option (List Char × List Char × (List Char × γ)) := fun s =>
  match takeDigitsN n s with
  | some (ds, r) =>
    match k r with
    | some (con, rest, g) => some (ds ++ con, rest, (ds, g))
    | none => none
  | none => none

/-- A counted digit repetition such as `\d{1,2}` or `\d{2,4}`: the
candidate widths are tried in greedy backtracking order (`ns` lists them
longest first). -/
def mDigitsAlts (ns : List Nat) (k : List Char → Option (List Char × List Char × γ)) :
    List Char → Option (List Char × List Char × (List Char × γ)) :=
  match ns with
  | [] => fun _ => none
  | n :: more => fun s =>
    match mDigitsExact n k s with
    | some x => some x
    | none => mDigitsAlts more k s

/-- `[class]*` with greedy backtracking: prefer the longest run of
characters satisfying `p`, retrying `k` at ever shorter runs. -/
def greedyStar (p : Char → Bool) (k : List Char → Option (List Char × List Char × γ)) :
    List Char → Option (List Char × List Char × (List Char × γ))
  | [] =>
    match k [] with
    | some (con, rest, g) => some (con, rest, ([], g))
    | none => none
  | c :: cs =>
    if p c then
      match greedyStar p k cs with
      | some (con, rest, (run, g)) => some (c :: con, rest, (c :: run, g))
      | none =>
        match k (c :: cs) with
        | some (con, rest, g) => some (con, rest, ([], g))
        | none => none
    else
      match k (c :: cs) with
      | some (con, rest, g) => some (con, rest, ([], g))
      | none => none

/-- `[class]+`: one mandatory character, then `greedyStar`. -/
def greedyPlus (p : Char → Bool) (k : List Char → Option (List Char × List Char × γ)) :
    List Char → Option (List Char × List Char × (List Char × γ)) := fun s =>
  match s with
  | [] => none
  | c :: cs =>
    if p c then
      match greedyStar p k cs with
      | some (con, rest, (run, g)) => some (c :: con, rest, (c :: run, g))
      | none => none
    else none

/-- A literal character sequence, then `k`. -/
def matchLit (pat : List Char) (k : List Char → Option (List Char × List Char × γ)) :
    List Char → Option (List Char × List Char × γ) :=
  match pat with
  | [] => k
  | c :: cs => mChar c (matchLit cs k)

/-- Case-insensitively consume the (lowercase) key `key`, returning the
actual characters consumed. -/
def consumeCI : List Char → List Char → Option (List Char × List Char)
  | [], s => some ([], s)
  | _ :: _, [] => none
  | k :: key, c :: cs =>
    if toLowerJS c = k then
      match consumeCI key cs with
      | some (tok, rest) => some (c :: tok, rest)
      | none => none
    else none

/-- The ordered alternation `(januar|februar|...)` over the month
vocabulary (the regexes build it from the keys of `GERMAN_MONTHS`):
alternatives are tried in written order, each with full continuation
backtracking; a successful alternative also yields the month number the
table associates with the matched key. -/
def monthAlt (alts : List (String × String))
    (k : List Char → Option (List Char × List Char × γ)) :
    List Char → Option (List Char × List Char × (List Char × String × γ)) :=
  match alts with
  | [] => fun _ => none
  | (key, val) :: more => fun s =>
    match consumeCI key.data s with
    | some (tok, rest1) =>
      match k rest1 with
      | some (con, rest, g) => some (tok ++ con, rest, (tok, val, g))
      | none => monthAlt more k s
    | none => monthAlt more k s

/-- `(?:m)?` greedy optional group followed by `k`: try `m` (whose
single way of matching is determined by its fixed shape) and fall back
to skipping it. -/
def mOpt (m : List Char → Option (List Char × List Char × γ))
    (k : List Char → Option (List Char × List Char × δ)) :
    List Char → Option (List Char × List Char × (Option γ × δ)) := fun s =>
  match m s with
  | some (c1, r1, g) =>
    (match k r1 with
     | some (c2, r2, d) => some (c1 ++ c2, r2, (some g, d))
     | none =>
       match k s with
       | some (c2, r2, d) => some (c2, r2, (none, d))
       | none => none)
  | none =>
    match k s with
    | some (c2, r2, d) => some (c2, r2, (none, d))
    | none => none

/-- Leftmost-match search: try the matcher at every position from the
left, returning the prefix before the first position where it succeeds
together with its result.  This also models the script's subsequent
`indexOf(fullMatch)` split: the first occurrence of the matched text is
the match position (an earlier occurrence would itself be a match). -/
def scanFirst (m : List Char → Option α) : List Char → Option (List Char × α)
  | [] =>
    match m [] with
    | some a => some ([], a)
    | none => none
  | c :: cs =>
    match m (c :: cs) with
    | some a => some ([], a)
    | none =>
      match scanFirst m cs with
      | some (pre, a) => some (c :: pre, a)
      | none => none

/-- Substring test (`String.prototype.includes`). -/
def containsSub (pat s : List Char) : Bool :=
  (scanFirst (matchLit pat mEnd) s).isSome

/-- First-occurrence literal replacement by the empty string
(`String.prototype.replace` with a string pattern). -/
def replaceFirst (pat s : List Char) : List Char :=
  match scanFirst (matchLit pat mEnd) s with
  | some (pre, _, rest, _) => pre ++ rest
  | none => s

/-! ## The shared helpers of the script -/

/-- The `GERMAN_MONTHS` table (lines 7–14) in the key order of the JS
object literal: the duplicate `'mai'` key keeps its first position, so
the long names precede the short forms, and `'sep'` precedes `'sept'`.
`MONTH_NAMES_PATTERN` (line 17) is the alternation of these keys in this
order. -/
def GERMAN_MONTHS : List (String × String) :=
  [("januar", "01"), ("februar", "02"), ("märz", "03"), ("april", "04"),
   ("mai", "05"), ("juni", "06"), ("juli", "07"), ("august", "08"),
   ("september", "09"), ("oktober", "10"), ("november", "11"), ("dezember", "12"),
   ("jan", "01"), ("feb", "02"), ("mär", "03"), ("apr", "04"),
   ("jun", "06"), ("jul", "07"), ("aug", "08"),
   ("sep", "09"), ("sept", "09"), ("okt", "10"), ("nov", "11"), ("dez", "12")]

/-- JS `padStart(2, '0')`. -/
def padStart2 (l : List Char) : List Char :=
  if l.length ≥ 2 then l else List.replicate (2 - l.length) '0' ++ l

/-- The character class `[.\-_\s]` of the leading/trailing cleanup. -/
def isSepDotDashUnderscoreWs (c : Char) : Bool :=
  c == '.' || c == '-' || c == '_' || isSpaceJS c

/-- The character class `[\s\-_]` of the before-extension cleanup. -/
def isWsDashUnderscore (c : Char) : Bool :=
  isSpaceJS c || c == '-' || c == '_'

/-- `replace(/\s+,/g, ',')`: drop a whitespace run immediately before a
comma.  The processed tail starts with `','` exactly when the remaining
input is a whitespace run followed by a comma. -/
def replWsBeforeComma : List Char → List Char
  | [] => []
  | c :: cs =>
    if isSpaceJS c then
      match replWsBeforeComma cs with
      | ',' :: rest => ',' :: rest
      | r => c :: r
    else c :: replWsBeforeComma cs

/-- `replace(/\s+/g, ' ')`: collapse every whitespace run to one space. -/
def collapseWsRuns : List Char → List Char
  | [] => []
  | [c] => if isSpaceJS c then [' '] else [c]
  | c1 :: c2 :: rest =>
    if isSpaceJS c1 then
      if isSpaceJS c2 then collapseWsRuns (c2 :: rest)
      else ' ' :: collapseWsRuns (c2 :: rest)
    else c1 :: collapseWsRuns (c2 :: rest)

/-- `replace(/t{2,}/g, 't')` for a separator `t`: collapse runs of `t`. -/
def collapseRuns (t : Char) : List Char → List Char
  | [] => []
  | [c] => [c]
  | c1 :: c2 :: rest =>
    if c1 = t ∧ c2 = t then collapseRuns t (c2 :: rest)
    else c1 :: collapseRuns t (c2 :: rest)

/-- `replace(/[\s\-_]+\./g, '.')`: drop a separator run immediately
before a dot (stray separators before the file-extension dot). -/
def replSepBeforeDot : List Char → List Char
  | [] => []
  | c :: cs =>
    if isWsDashUnderscore c then
      match replSepBeforeDot cs with
      | '.' :: rest => '.' :: rest
      | r => c :: r
    else c :: replSepBeforeDot cs

/-- `cleanupFilename` (lines 723–732): the seven chained `replace`
steps, in the order the script applies them. -/
def cleanupFilename (filename : String) : String :=
  let s1 := filename.data.dropWhile isSepDotDashUnderscoreWs
  let s2 := (s1.reverse.dropWhile isSepDotDashUnderscoreWs).reverse
  let s3 := replWsBeforeComma s2
  let s4 := collapseWsRuns s3
  let s5 := collapseRuns '_' s4
  let s6 := collapseRuns '-' s5
  let s7 := replSepBeforeDot s6
  ⟨s7⟩

/-- The result record every recognizer produces (year/month/day as the
strings the script later concatenates, the cleaned remainder, and the
diagnostic pattern label). -/
structure DateMatch where
  year : String
  month : String
  day : String
  restOfFilename : String
  matchedPattern : String
deriving DecidableEq

/-! ## The recognizers (pattern chain of `rename-files.mjs`)

Each recognizer searches its regex in the file name, splits the name
into the text before and after the matched substring, cleans the
concatenation of the two parts and returns a `DateMatch`.  In the
script the split is `filename.indexOf(fullMatch)`; the first occurrence
of the matched text is the regex match position (an occurrence further
left would itself be a leftmost match), so `scanFirst`'s prefix/suffix
split models it exactly. -/

/-- The fixed-width pattern `\d{4} sep \d{2} sep \d{2}` at one position
(`extractStandardISODate` / `extractUnderscoreDate` /
`extractDotSeparatedDate` use it with `-`, `_`, `.`). -/
def matchFixedAt (sep : Char) :
    List Char → Option (List Char × List Char ×
      (List Char × (List Char × (List Char × Unit)))) :=
  mDigitsExact 4 (mChar sep (mDigitsExact 2 (mChar sep (mDigitsExact 2 mEnd))))

/-- `extractStandardISODate` (lines 270–313): regex
`(\d{4})-(\d{2})-(\d{2})`, plus the range special case: when the
matched text is followed somewhere by `-` (checked with `includes`),
the first occurrence of `fullMatch-(\d{1,2})` is consumed whole, so the
trailing range token disappears from the remainder; the returned
year/month/day stay those of the ISO match. -/
def extractStandardISODate (filename : String) : Option DateMatch :=
  match scanFirst (matchFixedAt '-') filename.data with
  | none => none
  | some (pre, full, rest, (year, (month, (day, _)))) =>
    if containsSub (full ++ ['-']) filename.data then
      match scanFirst (matchLit full (mChar '-' (mDigitsAlts [2, 1] mEnd))) filename.data with
      | some (pre2, _, rest2, _) =>
        some { year := ⟨year⟩, month := ⟨month⟩, day := ⟨day⟩,
               restOfFilename := cleanupFilename ⟨pre2 ++ rest2⟩,
               matchedPattern := "Standard ISO Date with Range: yyyy-mm-dd-dd" }
      | none =>
        some { year := ⟨year⟩, month := ⟨month⟩, day := ⟨day⟩,
               restOfFilename := cleanupFilename ⟨pre ++ rest⟩,
               matchedPattern := "Standard ISO Date: yyyy-mm-dd" }
    else
      some { year := ⟨year⟩, month := ⟨month⟩, day := ⟨day⟩,
             restOfFilename := cleanupFilename ⟨pre ++ rest⟩,
             matchedPattern := "Standard ISO Date: yyyy-mm-dd" }

/-- `extractUnderscoreDate` (lines 574–595): regex `(\d{4})_(\d{2})_(\d{2})`. -/
def extractUnderscoreDate (filename : String) : Option DateMatch :=
  match scanFirst (matchFixedAt '_') filename.data with
  | none => none
  | some (pre, _, rest, (year, (month, (day, _)))) =>
    some { year := ⟨year⟩, month := ⟨month⟩, day := ⟨day⟩,
           restOfFilename := cleanupFilename ⟨pre ++ rest⟩,
           matchedPattern := "Underscore Separated Date: yyyy_mm_dd" }

/-- `extractDotSeparatedDate` (lines 602–623): regex `(\d{4})\.(\d{2})\.(\d{2})`. -/
def extractDotSeparatedDate (filename : String) : Option DateMatch :=
  match scanFirst (matchFixedAt '.') filename.data with
  | none => none
  | some (pre, _, rest, (year, (month, (day, _)))) =>
    some { year := ⟨year⟩, month := ⟨month⟩, day := ⟨day⟩,
           restOfFilename := cleanupFilename ⟨pre ++ rest⟩,
           matchedPattern := "Dot Separated Date: yyyy.mm.dd" }

/-- The pattern `(\d{1,2})\.(\d{1,2})\.(\d{2,4})` at one position. -/
def matchGermanAt :
    List Char → Option (List Char × List Char ×
      (List Char × (List Char × (List Char × Unit)))) :=
  mDigitsAlts [2, 1] (mChar '.' (mDigitsAlts [2, 1] (mChar '.' (mDigitsAlts [4, 3, 2] mEnd))))

/-- `extractGermanStyleDate` (lines 320–348): day-first dot notation
`(\d{1,2})\.(\d{1,2})\.(\d{2,4})`, year expanded by `normalizeYear`,
day and month zero-padded. -/
def extractGermanStyleDate (cy : Nat) (filename : String) : Option DateMatch :=
  match scanFirst matchGermanAt filename.data with
  | none => none
  | some (pre, _, rest, (day, (month, (year, _)))) =>
    some { year := normalizeYear cy ⟨year⟩,
           month := ⟨padStart2 month⟩, day := ⟨padStart2 day⟩,
           restOfFilename := cleanupFilename ⟨pre ++ rest⟩,
           matchedPattern := "German Style Date: [d]d.[m]m.[yy]yy" }

/-- `extractSingleDigitDate` (lines 355–381): regex
`(\d{4})-(\d{1,2})-(\d{1,2})`, month and day zero-padded. -/
def extractSingleDigitDate (filename : String) : Option DateMatch :=
  match scanFirst
      (mDigitsExact 4 (mChar '-' (mDigitsAlts [2, 1] (mChar '-' (mDigitsAlts [2, 1] mEnd)))))
      filename.data with
  | none => none
  | some (pre, _, rest, (year, (month, (day, _)))) =>
    some { year := ⟨year⟩, month := ⟨padStart2 month⟩, day := ⟨padStart2 day⟩,
           restOfFilename := cleanupFilename ⟨pre ++ rest⟩,
           matchedPattern := "Single Digit Date: yyyy-[m]m-d[d]" }

/-- `extractComplexHyphenatedDate` (lines 388–429): regex
`(\d{1,2})-(MONTHS)(?:-(\d{2}))?(?:-(\d{4}))?` (flag `i`).  The
dictionary check on the matched month name always succeeds because the
alternation is built from the table keys. -/
def extractComplexHyphenatedDate (cy : Nat) (filename : String) : Option DateMatch :=
  match scanFirst
      (mDigitsAlts [2, 1] (mChar '-' (monthAlt GERMAN_MONTHS
        (mOpt (mChar '-' (mDigitsExact 2 mEnd)) (mOpt (mChar '-' (mDigitsExact 4 mEnd)) mEnd)))))
      filename.data with
  | none => none
  | some (pre, _, rest, (day, (_, month, (optShort, (optFull, _))))) =>
    let year : String :=
      match optFull with
      | some (fy, _) => ⟨fy⟩
      | none =>
        match optShort with
        | some (sy, _) => normalizeYear cy ⟨sy⟩
        | none => natToString cy
    some { year := year, month := month, day := ⟨padStart2 day⟩,
           restOfFilename := cleanupFilename ⟨pre ++ rest⟩,
           matchedPattern := "Hyphenated Date with month name: [d]d-month-yy-yyyy" }

/-- `extractGenericHyphenatedDate` (lines 436–498).  The first regex
`(\d{1,2})-(MONTHS)(?:-(\d{2,4}))` is iterated with `matchAll`, but
every alternation match carries a valid month key, so the loop returns
on the first (leftmost) match.  The second regex is built in a template
literal where `\s` collapses to the letter `s`, so its separator is the
class `s*` — a run of the letter `s` (case-insensitive), not
whitespace. -/
def extractGenericHyphenatedDate (cy : Nat) (filename : String) : Option DateMatch :=
  match scanFirst
      (mDigitsAlts [2, 1] (mChar '-' (monthAlt GERMAN_MONTHS
        (mChar '-' (mDigitsAlts [4, 3, 2] mEnd)))))
      filename.data with
  | some (pre, _, rest, (day, (_, month, (year, _)))) =>
    some { year := if year.length = 2 then normalizeYear cy ⟨year⟩ else ⟨year⟩,
           month := month, day := ⟨padStart2 day⟩,
           restOfFilename := cleanupFilename ⟨pre ++ rest⟩,
           matchedPattern := "Hyphenated Date with month name: [d]d-month-[yy]yy" }
  | none =>
    match scanFirst
        (mDigitsAlts [2, 1] (greedyStar (fun c => toLowerJS c == 's') (monthAlt GERMAN_MONTHS
          (greedyStar (fun c => toLowerJS c == 's') (mDigitsAlts [4, 3, 2] mEnd)))))
        filename.data with
    | some (pre, _, rest, (day, (_, (_, month, (_, (year, _)))))) =>
      some { year := normalizeYear cy ⟨year⟩, month := month, day := ⟨padStart2 day⟩,
             restOfFilename := cleanupFilename ⟨pre ++ rest⟩,
             matchedPattern := "German Month Year Pattern: [d]d month [yy]yy" }
    | none => none

/-- The separator class `[\s.-]` of the day+month-name+year regex
(properly escaped in its template literal, so genuine whitespace). -/
def isSepWsDotDash (c : Char) : Bool := isSpaceJS c || c == '.' || c == '-'

/-- The separator class of the month-name+year regex of
`extractDateWithMonthName` (line 538).  In that template literal the
class is written `[\s.-]` with a single backslash, and in JS a `\s`
escape in a template literal is just the letter `s`, so the class is
`{'s', '.', '-'}` — case-insensitive via the `i` flag, and matching no
whitespace at all. -/
def isSepLetterSDotDash (c : Char) : Bool := toLowerJS c == 's' || c == '.' || c == '-'

/-- `extractDateWithMonthName` (lines 505–567): first
`(\d{1,2})[\s.-]+(MONTHS)[\s.-]+(\d{2,4})` (flag `i`), then the
month-plus-year form `(MONTHS)[s.-]+(\d{4})` (with the collapsed-escape
separator class, see `isSepLetterSDotDash`), defaulting the day
to `"01"`. -/
def extractDateWithMonthName (cy : Nat) (filename : String) : Option DateMatch :=
  match scanFirst
      (mDigitsAlts [2, 1] (greedyPlus isSepWsDotDash (monthAlt GERMAN_MONTHS
        (greedyPlus isSepWsDotDash (mDigitsAlts [4, 3, 2] mEnd)))))
      filename.data with
  | some (pre, _, rest, (day, (_, (_, month, (_, (year, _)))))) =>
    some { year := normalizeYear cy ⟨year⟩, month := month, day := ⟨padStart2 day⟩,
           restOfFilename := cleanupFilename ⟨pre ++ rest⟩,
           matchedPattern := "Date with Month Name and Day: [d]d month [yy]yy" }
  | none =>
    match scanFirst
        (monthAlt GERMAN_MONTHS (greedyPlus isSepLetterSDotDash (mDigitsExact 4 mEnd)))
        filename.data with
    | some (pre, _, rest, (_, month, (_, (year, _)))) =>
      some { year := ⟨year⟩, month := month, day := "01",
             restOfFilename := cleanupFilename ⟨pre ++ rest⟩,
             matchedPattern := "Date with Month Name Only: month yyyy" }
    | none => none

/-- The pattern `(\d{1,2})\.(\d{1,2})\.(?:\s+(\d{4}))?` at one position
(main pattern of `extractPartialDate`). -/
def matchPartialAt :
    List Char → Option (List Char × List Char ×
      (List Char × (List Char ×
        (Option (List Char × (List Char × Unit)) × Unit)))) :=
  mDigitsAlts [2, 1] (mChar '.' (mDigitsAlts [2, 1] (mChar '.'
    (mOpt (greedyPlus isSpaceJS (mDigitsExact 4 mEnd)) mEnd))))

/-- Word boundary after the candidate token: end of string or a
non-word character. -/
def nextNonWord : List Char → Bool
  | [] => true
  | c :: _ => !isWordCharJS c

/-- The bare year search `\b(19\d{2}|20\d{2})\b` at one position:
`prev` is the character before the position (word-boundary check). -/
def matchYearTokAt (prev : Option Char) (s : List Char) : Option (List Char) :=
  match s with
  | c1 :: c2 :: c3 :: c4 :: rest =>
    if (prev.all fun c => !isWordCharJS c)
        && ((c1 == '1' && c2 == '9') || (c1 == '2' && c2 == '0'))
        && c3.isDigit && c4.isDigit && nextNonWord rest then
      some [c1, c2, c3, c4]
    else none
  | _ => none

def findYearTokAux : Option Char → List Char → Option (List Char)
  | prev, [] => matchYearTokAt prev []
  | prev, c :: cs =>
    match matchYearTokAt prev (c :: cs) with
    | some t => some t
    | none => findYearTokAux (some c) cs

/-- Leftmost match of `\b(19\d{2}|20\d{2})\b` in the whole file name. -/
def findYearToken (s : List Char) : Option (List Char) := findYearTokAux none s

/-- The fallback pattern `(\d{1,2})\. (MONTHS) (\d{4})` (flag `i`) of
`extractPartialDate` (lines 689–713). -/
def extractPartialDateSpecial (filename : String) : Option DateMatch :=
  match scanFirst
      (mDigitsAlts [2, 1] (mChar '.' (mChar ' ' (monthAlt GERMAN_MONTHS
        (mChar ' ' (mDigitsExact 4 mEnd))))))
      filename.data with
  | some (pre, _, rest, (day, (_, month, (year, _)))) =>
    some { year := ⟨year⟩, month := month, day := ⟨padStart2 day⟩,
           restOfFilename := cleanupFilename ⟨pre ++ rest⟩,
           matchedPattern := "Special Case: Day. Month Year" }
  | none => none

/-- `extractPartialDate` (lines 630–716): a bare `d.m.` pair with an
optional attached `\s+yyyy`; when the year is missing, the whole name
is searched for a bare `19xx`/`20xx` token, which is then removed from
the text *after* the matched pair (`afterPattern.replace`); if no year
token exists anywhere, the current year is used.  Finally the
"day. month year" special case. -/
def extractPartialDate (cy : Nat) (filename : String) : Option DateMatch :=
  match scanFirst matchPartialAt filename.data with
  | some (pre, _, rest, (day, (month, (optY, _)))) =>
    match optY with
    | some (_, (year, _)) =>
      some { year := ⟨year⟩, month := ⟨padStart2 month⟩, day := ⟨padStart2 day⟩,
             restOfFilename := cleanupFilename ⟨pre ++ rest⟩,
             matchedPattern := "Partial Date" }
    | none =>
      match findYearToken filename.data with
      | some ytok =>
        some { year := ⟨ytok⟩, month := ⟨padStart2 month⟩, day := ⟨padStart2 day⟩,
               restOfFilename := cleanupFilename ⟨pre ++ replaceFirst ytok rest⟩,
               matchedPattern := "Partial Date with Year Elsewhere" }
      | none =>
        some { year := natToString cy, month := ⟨padStart2 month⟩, day := ⟨padStart2 day⟩,
               restOfFilename := cleanupFilename ⟨pre ++ rest⟩,
               matchedPattern := "Partial Date" }
  | none => extractPartialDateSpecial filename

/-- `extractDateFromFilename` (lines 240–263): the pattern chain, tried
in the listed priority order, first success wins. -/
def extractDateFromFilename (cy : Nat) (filename : String) : Option DateMatch :=
  match extractStandardISODate filename with
  | some r => some r
  | none =>
  match extractUnderscoreDate filename with
  | some r => some r
  | none =>
  match extractDotSeparatedDate filename with
  | some r => some r
  | none =>
  match extractGermanStyleDate cy filename with
  | some r => some r
  | none =>
  match extractSingleDigitDate filename with
  | some r => some r
  | none =>
  match extractComplexHyphenatedDate cy filename with
  | some r => some r
  | none =>
  match extractGenericHyphenatedDate cy filename with
  | some r => some r
  | none =>
  match extractDateWithMonthName cy filename with
  | some r => some r
  | none => extractPartialDate cy filename

/-- The per-file rename decision of `processDirectory` (lines 153–217):
extract, validate, skip names already carrying a `yyyy-mm-dd` prefix,
build the canonical name and skip no-op renames.  Returns the new name
exactly when the script would rename the file. -/
def processFilename (cy : Nat) (oldFilename : String) : Option String :=
  let alreadyFormatted := (matchFixedAt '-' oldFilename.data).isSome
  match extractDateFromFilename cy oldFilename with
  | none => none
  | some r =>
    if isValidDate cy r.year r.month r.day = false then none
    else if alreadyFormatted then none
    else
      let newFilename := r.year ++ "-" ++ r.month ++ "-" ++ r.day ++ " " ++ r.restOfFilename
      if oldFilename = newFilename then none else some newFilename

/-! ## C4: the ISO range special case keeps the first date -/

/--
**C4.**  When a strict ISO date is matched (in particular when it is
immediately followed by a numeric range suffix `-d`/`-dd`), the
returned year/month/day are always the captures of the leftmost ISO
match — never a date built from the trailing range token — the chain
returns that result unchanged, and on the spec's example the range
token is folded away from the cleaned remainder.
-/
theorem extractStandardISODate_range_keeps_first :
    (∀ f r, extractStandardISODate f = some r →
      ∃ pre full rest y m d u,
        scanFirst (matchFixedAt '-') f.data = some (pre, full, rest, (y, (m, (d, u)))) ∧
        r.year = ⟨y⟩ ∧ r.month = ⟨m⟩ ∧ r.day = ⟨d⟩) ∧
    (∀ cy f r, extractStandardISODate f = some r → extractDateFromFilename cy f = some r) ∧
    (∀ cy, extractDateFromFilename cy ("2022-06-18-19 Notes.docx") =
      some { year := "2022", month := "06", day := "18",
             restOfFilename := "Notes.docx",
             matchedPattern := "Standard ISO Date with Range: yyyy-mm-dd-dd" }) := by
  refine ⟨?_, ?_, ?_⟩
  · intro f r h
    unfold extractStandardISODate at h
    cases hscan : scanFirst (matchFixedAt '-') f.data with
    | none => rw [hscan] at h; exact absurd h (by simp)
    | some x =>
      obtain ⟨pre, full, rest, y, m, d, u⟩ := x
      rw [hscan] at h
      dsimp only at h
      refine ⟨pre, full, rest, y, m, d, u, rfl, ?_⟩
      split at h
      · cases hr : scanFirst (matchLit full (mChar '-' (mDigitsAlts [2, 1] mEnd))) f.data with
        | none => rw [hr] at h; cases h; exact ⟨rfl, rfl, rfl⟩
        | some x2 =>
          obtain ⟨pre2, full2, rest2, caps2⟩ := x2
          rw [hr] at h; cases h; exact ⟨rfl, rfl, rfl⟩
      · cases h; exact ⟨rfl, rfl, rfl⟩
  · intro cy f r h
    unfold extractDateFromFilename
    rw [h]
  · intro cy
    rfl

/-- Witness for C4, applying the chain part of the theorem at the
spec's example. -/
theorem extractStandardISODate_range_keeps_first_witness :
    extractDateFromFilename 2025 ("2022-06-18-19 Notes.docx") =
      some { year := "2022", month := "06", day := "18",
             restOfFilename := "Notes.docx",
             matchedPattern := "Standard ISO Date with Range: yyyy-mm-dd-dd" } :=
  extractStandardISODate_range_keeps_first.2.1 2025 ("2022-06-18-19 Notes.docx") _ rfl

/-! ## C5: the month-plus-year recognizer cannot see a space

The script's own doc comments (lines 501–502, 536) name
`"April 2021"` as the month-plus-year example this recognizer handles,
and the spec requires `"April 2021 Bericht.docx" →
"2021-04-01 Bericht.docx"`.  But the separator class of that regex is
written `[\s.-]` inside a template literal, where JS collapses the
escape `\s` to the plain letter `s`; the class therefore matches only
`s`/`.`/`-` and never a space, so the month-plus-year branch cannot
fire on the documented example, no other recognizer matches it either,
and the chain returns null. -/

/--
**C5.**  Contrary to the claim (and to the function's own doc
comment), extracting from `"April 2021 Bericht.docx"` fails: the whole
chain returns the no-match signal, for every current year.
-/
theorem extractDateFromFilename_april2021_none :
    ∀ cy, extractDateFromFilename cy ("April 2021 Bericht.docx") = none :=
  fun _ => rfl

/-! ## C9: no-match is a value, not a crash -/

/--
**C9.**  The chain returns the explicit no-match signal `none` exactly
when every recognizer returns `none` — unrecognized names are a value
the caller can test, never an exception (all recognizers are total
functions) — and `"Notes Sep.txt"` is such a name, for every current
year.
-/
theorem extractDateFromFilename_none_iff :
    (∀ cy f, extractDateFromFilename cy f = none ↔
      (extractStandardISODate f = none ∧ extractUnderscoreDate f = none ∧
       extractDotSeparatedDate f = none ∧ extractGermanStyleDate cy f = none ∧
       extractSingleDigitDate f = none ∧ extractComplexHyphenatedDate cy f = none ∧
       extractGenericHyphenatedDate cy f = none ∧ extractDateWithMonthName cy f = none ∧
       extractPartialDate cy f = none)) ∧
    (∀ cy, extractDateFromFilename cy ("Notes Sep.txt") = none) := by
  constructor
  · intro cy f
    unfold extractDateFromFilename
    cases h1 : extractStandardISODate f <;>
      cases h2 : extractUnderscoreDate f <;>
        cases h3 : extractDotSeparatedDate f <;>
          cases h4 : extractGermanStyleDate cy f <;>
            cases h5 : extractSingleDigitDate f <;>
              cases h6 : extractComplexHyphenatedDate cy f <;>
                cases h7 : extractGenericHyphenatedDate cy f <;>
                  cases h8 : extractDateWithMonthName cy f <;>
                    simp [h1, h2, h3, h4, h5, h6, h7, h8]
  · intro cy
    rfl

/-! ## C7: the partial-date year search and its removal scope -/

/--
**C7, counterexample.**  The claim says a bare year token found
elsewhere in the name is used as the year *and removed from the
remainder*.  On `"2020 9.5. x"` the token `"2020"` (which precedes the
`d.m.` pair) is indeed used as the year, but the remainder still
contains it: the script only removes the token from the text after the
matched pair.
-/
theorem extractPartialDate_keeps_earlier_year_token :
    extractDateFromFilename 2025 ("2020 9.5. x") =
      some { year := "2020", month := "05", day := "09",
             restOfFilename := "2020 x",
             matchedPattern := "Partial Date with Year Elsewhere" } ∧
    containsSub ("2020").data ("2020 x").data = true :=
  ⟨rfl, rfl⟩

/--
**C7, amended.**  For a name whose partial-date pattern matches a bare
`d.m.` pair with no attached year: if the whole name contains a bare
`19xx`/`20xx` token, that token becomes the year and its first
occurrence is removed from the portion of the name *after* the matched
pair only (an occurrence before the pair stays in the remainder); if no
such token exists anywhere, the year defaults to the current calendar
year.
-/
theorem extractPartialDate_year_fallback (cy : Nat) (f : String)
    (pre full rest day month : List Char) (u : Unit)
    (hscan : scanFirst matchPartialAt f.data =
      some (pre, full, rest, (day, (month, (none, u))))) :
    (∀ ytok, findYearToken f.data = some ytok →
      extractPartialDate cy f =
        some { year := ⟨ytok⟩, month := ⟨padStart2 month⟩, day := ⟨padStart2 day⟩,
               restOfFilename := cleanupFilename ⟨pre ++ replaceFirst ytok rest⟩,
               matchedPattern := "Partial Date with Year Elsewhere" }) ∧
    (findYearToken f.data = none →
      extractPartialDate cy f =
        some { year := natToString cy, month := ⟨padStart2 month⟩, day := ⟨padStart2 day⟩,
               restOfFilename := cleanupFilename ⟨pre ++ rest⟩,
               matchedPattern := "Partial Date" }) := by
  constructor
  · intro ytok hy
    unfold extractPartialDate
    rw [hscan]
    dsimp only
    rw [hy]
  · intro hy
    unfold extractPartialDate
    rw [hscan]
    dsimp only
    rw [hy]

/-- Witness for C7 (amended): on `"9.5. Notes 2020.txt"` the year token
follows the pair, so it is found, used and removed from the remainder. -/
theorem extractPartialDate_year_fallback_witness :
    extractPartialDate 2025 ("9.5. Notes 2020.txt") =
      some { year := "2020", month := "05", day := "09",
             restOfFilename := "Notes.txt",
             matchedPattern := "Partial Date with Year Elsewhere" } :=
  (extractPartialDate_year_fallback 2025 ("9.5. Notes 2020.txt")
      [] ('9' :: '.' :: '5' :: '.' :: []) (' ' :: 'N' :: 'o' :: 't' :: 'e' :: 's' :: ' ' :: '2' :: '0' :: '2' :: '0' :: '.' :: 't' :: 'x' :: 't' :: [])
      ('9' :: []) ('5' :: []) () rfl).1
    ('2' :: '0' :: '2' :: '0' :: []) rfl

/-! ## Soundness of the matchers

`MSound m Q` says: whenever the matcher succeeds, the consumed text is
a true decomposition of the subject and the property `Q` holds of the
consumed text and the captures.  The per-combinator lemmas below let
the capture shapes (digit counts, month-vocabulary membership) be read
off compositionally; `scanFirst_sound` transports them through the
leftmost-match search. -/

def MSound (m : List Char → Option (List Char × List Char × γ))
    (Q : List Char → γ → Prop) : Prop :=
  ∀ s con rest g, m s = some (con, rest, g) → s = con ++ rest ∧ Q con g

theorem msound_mEnd : MSound mEnd (fun con (_ : Unit) => con = []) := by
  intro s con rest g h
  unfold mEnd at h
  cases h
  exact ⟨rfl, rfl⟩

theorem msound_mChar {γ} {k : List Char → Option (List Char × List Char × γ)}
    {Q : List Char → γ → Prop} (ch : Char) (hk : MSound k Q) :
    MSound (mChar ch k) (fun con g => ∃ con', con = ch :: con' ∧ Q con' g) := by
  intro s con rest g h
  unfold mChar at h
  cases s with
  | nil => exact absurd h (by simp)
  | cons c cs =>
    try dsimp only at h
    by_cases hc : c = ch
    · rw [if_pos hc] at h
      cases hkr : k cs with
      | none => rw [hkr] at h; exact absurd h (by simp)
      | some x =>
        obtain ⟨con', rest', g'⟩ := x
        rw [hkr] at h
        try dsimp only at h
        cases h
        obtain ⟨hsplit, hq⟩ := hk _ _ _ _ hkr
        subst hc
        exact ⟨by rw [hsplit]; rfl, con', rfl, hq⟩
    · rw [if_neg hc] at h
      exact absurd h (by simp)

theorem msound_takeDigitsN : ∀ (n : Nat) (s ds r : List Char),
    takeDigitsN n s = some (ds, r) →
    s = ds ++ r ∧ ds.length = n ∧ ds.all Char.isDigit = true := by
  intro n
  induction n with
  | zero =>
    intro s ds r h
    unfold takeDigitsN at h
    cases h
    exact ⟨rfl, rfl, rfl⟩
  | succ n ih =>
    intro s ds r h
    unfold takeDigitsN at h
    cases s with
    | nil => exact absurd h (by simp)
    | cons c cs =>
      try dsimp only at h
      by_cases hc : c.isDigit = true
      · rw [if_pos hc] at h
        cases ht : takeDigitsN n cs with
        | none => rw [ht] at h; exact absurd h (by simp)
        | some x =>
          obtain ⟨ds', r'⟩ := x
          rw [ht] at h
          try dsimp only at h
          cases h
          obtain ⟨hsplit, hlen, hdig⟩ := ih _ _ _ ht
          refine ⟨by rw [hsplit]; rfl, by simp [hlen], ?_⟩
          simp only [List.all_cons, Bool.and_eq_true]
          exact ⟨hc, hdig⟩
      · rw [if_neg hc] at h
        exact absurd h (by simp)

theorem msound_mDigitsExact {γ} {k : List Char → Option (List Char × List Char × γ)}
    {Q : List Char → γ → Prop} (n : Nat) (hk : MSound k Q) :
    MSound (mDigitsExact n k) (fun con p =>
      p.1.length = n ∧ p.1.all Char.isDigit = true ∧
      ∃ con', con = p.1 ++ con' ∧ Q con' p.2) := by
  intro s con rest g h
  unfold mDigitsExact at h
  cases ht : takeDigitsN n s with
  | none => rw [ht] at h; exact absurd h (by simp)
  | some x =>
    obtain ⟨ds, r⟩ := x
    rw [ht] at h
    try dsimp only at h
    cases hkr : k r with
    | none => rw [hkr] at h; exact absurd h (by simp)
    | some y =>
      obtain ⟨con', rest', g'⟩ := y
      rw [hkr] at h
      try dsimp only at h
      cases h
      obtain ⟨hs1, hlen, hdig⟩ := msound_takeDigitsN n s ds r ht
      obtain ⟨hs2, hq⟩ := hk _ _ _ _ hkr
      exact ⟨by rw [hs1, hs2, List.append_assoc], hlen, hdig, con', rfl, hq⟩

theorem msound_mDigitsAlts {γ} {k : List Char → Option (List Char × List Char × γ)}
    {Q : List Char → γ → Prop} (ns : List Nat) (hk : MSound k Q) :
    MSound (mDigitsAlts ns k) (fun con p =>
      p.1.length ∈ ns ∧ p.1.all Char.isDigit = true ∧
      ∃ con', con = p.1 ++ con' ∧ Q con' p.2) := by
  induction ns with
  | nil => intro s con rest g h; exact absurd h (by simp [mDigitsAlts])
  | cons n more ih =>
    intro s con rest g h
    unfold mDigitsAlts at h
    try dsimp only at h
    cases he : mDigitsExact n k s with
    | some x =>
      rw [he] at h
      try dsimp only at h
      cases h
      obtain ⟨hsplit, hlen, hdig, con', hcon, hq⟩ := msound_mDigitsExact n hk s _ _ _ he
      exact ⟨hsplit, by simp [hlen], hdig, con', hcon, hq⟩
    | none =>
      rw [he] at h
      try dsimp only at h
      obtain ⟨hsplit, hmem, hdig, con', hcon, hq⟩ := ih s con rest g h
      exact ⟨hsplit, by simp [hmem], hdig, con', hcon, hq⟩

theorem msound_greedyStar {γ} {k : List Char → Option (List Char × List Char × γ)}
    {Q : List Char → γ → Prop} (p : Char → Bool) (hk : MSound k Q) :
    MSound (greedyStar p k) (fun con pr =>
      pr.1.all p = true ∧ ∃ con', con = pr.1 ++ con' ∧ Q con' pr.2) := by
  intro s
  induction s with
  | nil =>
    intro con rest g h
    unfold greedyStar at h
    cases hkr : k [] with
    | none => rw [hkr] at h; exact absurd h (by simp)
    | some x =>
      obtain ⟨con', rest', g'⟩ := x
      rw [hkr] at h
      try dsimp only at h
      cases h
      obtain ⟨hsplit, hq⟩ := hk _ _ _ _ hkr
      exact ⟨hsplit, rfl, con, rfl, hq⟩
  | cons c cs ih =>
    intro con rest g h
    unfold greedyStar at h
    try dsimp only at h
    by_cases hc : p c = true
    · rw [if_pos hc] at h
      cases hg : greedyStar p k cs with
      | some x =>
        obtain ⟨con2, rest2, run2, g2⟩ := x
        rw [hg] at h
        try dsimp only at h
        cases h
        obtain ⟨hsplit, hrun, con', hcon, hq⟩ := ih _ _ _ hg
        refine ⟨by rw [hsplit]; rfl, ?_, con', by rw [hcon]; rfl, hq⟩
        simp only [List.all_cons, Bool.and_eq_true]
        exact ⟨hc, hrun⟩
      | none =>
        rw [hg] at h
        try dsimp only at h
        cases hkr : k (c :: cs) with
        | none => rw [hkr] at h; exact absurd h (by simp)
        | some y =>
          obtain ⟨con', rest', g'⟩ := y
          rw [hkr] at h
          try dsimp only at h
          cases h
          obtain ⟨hsplit, hq⟩ := hk _ _ _ _ hkr
          exact ⟨hsplit, rfl, con, rfl, hq⟩
    · rw [if_neg hc] at h
      cases hkr : k (c :: cs) with
      | none => rw [hkr] at h; exact absurd h (by simp)
      | some y =>
        obtain ⟨con', rest', g'⟩ := y
        rw [hkr] at h
        try dsimp only at h
        cases h
        obtain ⟨hsplit, hq⟩ := hk _ _ _ _ hkr
        exact ⟨hsplit, rfl, con, rfl, hq⟩

theorem msound_greedyPlus {γ} {k : List Char → Option (List Char × List Char × γ)}
    {Q : List Char → γ → Prop} (p : Char → Bool) (hk : MSound k Q) :
    MSound (greedyPlus p k) (fun con pr =>
      pr.1 ≠ [] ∧ pr.1.all p = true ∧ ∃ con', con = pr.1 ++ con' ∧ Q con' pr.2) := by
  intro s con rest g h
  unfold greedyPlus at h
  cases s with
  | nil => exact absurd h (by simp)
  | cons c cs =>
    try dsimp only at h
    by_cases hc : p c = true
    · rw [if_pos hc] at h
      cases hg : greedyStar p k cs with
      | none => rw [hg] at h; exact absurd h (by simp)
      | some x =>
        obtain ⟨con2, rest2, run2, g2⟩ := x
        rw [hg] at h
        try dsimp only at h
        cases h
        obtain ⟨hsplit, hrun, con', hcon, hq⟩ :=
          msound_greedyStar p hk _ _ _ _ hg
        refine ⟨by rw [hsplit]; rfl, by simp, ?_, con', by rw [hcon]; rfl, hq⟩
        simp only [List.all_cons, Bool.and_eq_true]
        exact ⟨hc, hrun⟩
    · rw [if_neg hc] at h
      exact absurd h (by simp)

theorem msound_matchLit {γ} {k : List Char → Option (List Char × List Char × γ)}
    {Q : List Char → γ → Prop} (pat : List Char) (hk : MSound k Q) :
    MSound (matchLit pat k) (fun con g => ∃ con', con = pat ++ con' ∧ Q con' g) := by
  induction pat with
  | nil =>
    intro s con rest g h
    obtain ⟨hsplit, hq⟩ := hk s con rest g h
    exact ⟨hsplit, con, rfl, hq⟩
  | cons c cs ih =>
    intro s con rest g h
    obtain ⟨hsplit, hex⟩ := msound_mChar c ih s con rest g h
    obtain ⟨c1, hc1, c2, hc2, hq⟩ := hex
    exact ⟨hsplit, c2, by rw [hc1, hc2]; rfl, hq⟩

theorem msound_consumeCI : ∀ (key s tok rest : List Char),
    consumeCI key s = some (tok, rest) →
    s = tok ++ rest ∧ tok.map toLowerJS = key := by
  intro key
  induction key with
  | nil =>
    intro s tok rest h
    unfold consumeCI at h
    cases h
    exact ⟨rfl, rfl⟩
  | cons kc key ih =>
    intro s tok rest h
    unfold consumeCI at h
    cases s with
    | nil => exact absurd h (by simp)
    | cons c cs =>
      try dsimp only at h
      by_cases hc : toLowerJS c = kc
      · rw [if_pos hc] at h
        cases hr : consumeCI key cs with
        | none => rw [hr] at h; exact absurd h (by simp)
        | some x =>
          obtain ⟨tok', rest'⟩ := x
          rw [hr] at h
          try dsimp only at h
          cases h
          obtain ⟨hsplit, hmap⟩ := ih _ _ _ hr
          exact ⟨by rw [hsplit]; rfl, by simp [hmap, hc]⟩
      · rw [if_neg hc] at h
        exact absurd h (by simp)

theorem msound_monthAlt {γ} {k : List Char → Option (List Char × List Char × γ)}
    {Q : List Char → γ → Prop} (alts : List (String × String)) (hk : MSound k Q) :
    MSound (monthAlt alts k) (fun con t =>
      (∃ key, (key, t.2.1) ∈ alts ∧ t.1.map toLowerJS = key.data) ∧
      ∃ con', con = t.1 ++ con' ∧ Q con' t.2.2) := by
  induction alts with
  | nil => intro s con rest g h; exact absurd h (by simp [monthAlt])
  | cons kv more ih =>
    obtain ⟨key, val⟩ := kv
    intro s con rest g h
    unfold monthAlt at h
    try dsimp only at h
    cases hc : consumeCI key.data s with
    | some x =>
      obtain ⟨tok, rest1⟩ := x
      rw [hc] at h
      try dsimp only at h
      cases hkr : k rest1 with
      | some y =>
        obtain ⟨con2, rest2, g2⟩ := y
        rw [hkr] at h
        try dsimp only at h
        cases h
        obtain ⟨hsplit1, hmap⟩ := msound_consumeCI key.data s tok rest1 hc
        obtain ⟨hsplit2, hq⟩ := hk _ _ _ _ hkr
        refine ⟨by rw [hsplit1, hsplit2, List.append_assoc], ?_, con2, rfl, hq⟩
        exact ⟨key, by simp, by simpa using hmap⟩
      | none =>
        rw [hkr] at h
        try dsimp only at h
        obtain ⟨hsplit, ⟨key', hkey, hmap⟩, hrest⟩ := ih s con rest g h
        exact ⟨hsplit, ⟨key', by simp [hkey], hmap⟩, hrest⟩
    | none =>
      rw [hc] at h
      try dsimp only at h
      obtain ⟨hsplit, ⟨key', hkey, hmap⟩, hrest⟩ := ih s con rest g h
      exact ⟨hsplit, ⟨key', by simp [hkey], hmap⟩, hrest⟩

theorem msound_mOpt {γ δ} {m : List Char → Option (List Char × List Char × γ)}
    {k : List Char → Option (List Char × List Char × δ)}
    {Qm : List Char → γ → Prop} {Qk : List Char → δ → Prop}
    (hm : MSound m Qm) (hk : MSound k Qk) :
    MSound (mOpt m k) (fun con p =>
      (∀ g, p.1 = some g → ∃ c1 c2, con = c1 ++ c2 ∧ Qm c1 g ∧ Qk c2 p.2) ∧
      (p.1 = none → Qk con p.2)) := by
  intro s con rest g h
  unfold mOpt at h
  cases hms : m s with
  | some x =>
    obtain ⟨c1, r1, g1⟩ := x
    rw [hms] at h
    try dsimp only at h
    cases hkr : k r1 with
    | some y =>
      obtain ⟨c2, r2, d2⟩ := y
      rw [hkr] at h
      try dsimp only at h
      cases h
      obtain ⟨hsplit1, hq1⟩ := hm s c1 r1 g1 hms
      obtain ⟨hsplit2, hq2⟩ := hk _ _ _ _ hkr
      refine ⟨by rw [hsplit1, hsplit2, List.append_assoc], ?_, by simp⟩
      intro g' hg'
      cases hg'
      exact ⟨c1, c2, rfl, hq1, hq2⟩
    | none =>
      rw [hkr] at h
      try dsimp only at h
      cases hks : k s with
      | none => rw [hks] at h; exact absurd h (by simp)
      | some y =>
        obtain ⟨c2, r2, d2⟩ := y
        rw [hks] at h
        try dsimp only at h
        cases h
        obtain ⟨hsplit, hq⟩ := hk _ _ _ _ hks
        exact ⟨hsplit, by simp, fun _ => hq⟩
  | none =>
    rw [hms] at h
    try dsimp only at h
    cases hks : k s with
    | none => rw [hks] at h; exact absurd h (by simp)
    | some y =>
      obtain ⟨c2, r2, d2⟩ := y
      rw [hks] at h
      try dsimp only at h
      cases h
      obtain ⟨hsplit, hq⟩ := hk _ _ _ _ hks
      exact ⟨hsplit, by simp, fun _ => hq⟩

theorem scanFirst_sound {γ} {m : List Char → Option (List Char × List Char × γ)}
    {Q : List Char → γ → Prop} (hm : MSound m Q) :
    ∀ s pre con rest g, scanFirst m s = some (pre, con, rest, g) →
      s = pre ++ con ++ rest ∧ Q con g := by
  intro s
  induction s with
  | nil =>
    intro pre con rest g h
    unfold scanFirst at h
    cases hms : m [] with
    | none => rw [hms] at h; exact absurd h (by simp)
    | some x =>
      obtain ⟨con', rest', g'⟩ := x
      rw [hms] at h
      try dsimp only at h
      cases h
      obtain ⟨hsplit, hq⟩ := hm _ _ _ _ hms
      exact ⟨by rw [List.nil_append]; exact hsplit, hq⟩
  | cons c cs ih =>
    intro pre con rest g h
    unfold scanFirst at h
    cases hms : m (c :: cs) with
    | some x =>
      obtain ⟨con', rest', g'⟩ := x
      rw [hms] at h
      try dsimp only at h
      cases h
      obtain ⟨hsplit, hq⟩ := hm _ _ _ _ hms
      exact ⟨by rw [List.nil_append]; exact hsplit, hq⟩
    | none =>
      rw [hms] at h
      try dsimp only at h
      cases hsc : scanFirst m cs with
      | none => rw [hsc] at h; exact absurd h (by simp)
      | some x =>
        obtain ⟨pre', a⟩ := x
        rw [hsc] at h
        try dsimp only at h
        cases h
        obtain ⟨hsplit, hq⟩ := ih _ _ _ _ hsc
        exact ⟨by rw [hsplit]; rfl, hq⟩

/-! ## Completeness of the fixed-width matchers and claim C3 -/

theorem takeDigitsN_append : ∀ (n : Nat) (l r : List Char), l.length = n →
    l.all Char.isDigit = true → takeDigitsN n (l ++ r) = some (l, r) := by
  intro n l
  induction l generalizing n with
  | nil =>
    intro r hlen _
    subst hlen
    rfl
  | cons c cs ih =>
    intro r hlen h
    simp only [List.all_cons, Bool.and_eq_true] at h
    subst hlen
    show takeDigitsN (cs.length + 1) (c :: (cs ++ r)) = some (c :: cs, r)
    unfold takeDigitsN
    rw [if_pos h.1, ih cs.length r rfl h.2]

theorem matchFixedAt_complete (sep : Char) (y m d post : List Char)
    (hy4 : y.length = 4) (hyd : y.all Char.isDigit = true)
    (hm2 : m.length = 2) (hmd : m.all Char.isDigit = true)
    (hd2 : d.length = 2) (hdd : d.all Char.isDigit = true) :
    (matchFixedAt sep (y ++ sep :: (m ++ sep :: (d ++ post)))).isSome = true := by
  unfold matchFixedAt mDigitsExact
  rw [takeDigitsN_append 4 y _ hy4 hyd]
  dsimp only
  unfold mChar
  dsimp only
  rw [if_pos rfl]
  rw [takeDigitsN_append 2 m _ hm2 hmd]
  dsimp only
  rw [if_pos rfl]
  rw [takeDigitsN_append 2 d _ hd2 hdd]
  rfl

theorem scanFirst_isSome {α} (m : List Char → Option α) (l₂ : List Char)
    (h : (m l₂).isSome = true) :
    ∀ l₁, (scanFirst m (l₁ ++ l₂)).isSome = true := by
  intro l₁
  induction l₁ with
  | nil =>
    show (scanFirst m l₂).isSome = true
    cases l₂ with
    | nil =>
      unfold scanFirst
      cases hm : m [] with
      | none => rw [hm] at h; exact absurd h (by simp)
      | some a => rfl
    | cons c cs =>
      unfold scanFirst
      cases hm : m (c :: cs) with
      | none => rw [hm] at h; exact absurd h (by simp)
      | some a => rfl
  | cons c cs ih =>
    show (scanFirst m (c :: (cs ++ l₂))).isSome = true
    unfold scanFirst
    cases hm : m (c :: (cs ++ l₂)) with
    | some a => rfl
    | none =>
      dsimp only
      cases hsc : scanFirst m (cs ++ l₂) with
      | none => rw [hsc] at ih; exact absurd ih (by simp)
      | some x => rfl

/-- The name contains a strict fixed-width occurrence
`\d{4} sep \d{2} sep \d{2}`. -/
def hasFixedYmd (sep : Char) (f : String) : Prop :=
  ∃ pre y m d post, f.data = pre ++ (y ++ sep :: (m ++ sep :: (d ++ post))) ∧
    y.length = 4 ∧ y.all Char.isDigit = true ∧
    m.length = 2 ∧ m.all Char.isDigit = true ∧
    d.length = 2 ∧ d.all Char.isDigit = true

theorem scanFixed_isSome_of_hasFixedYmd {sep : Char} {f : String} (h : hasFixedYmd sep f) :
    (scanFirst (matchFixedAt sep) f.data).isSome = true := by
  obtain ⟨pre, y, m, d, post, hsplit, hy4, hyd, hm2, hmd, hd2, hdd⟩ := h
  rw [hsplit]
  exact scanFirst_isSome _ _ (matchFixedAt_complete sep y m d post hy4 hyd hm2 hmd hd2 hdd) pre

theorem extractStandardISODate_isSome {f : String}
    (h : (scanFirst (matchFixedAt '-') f.data).isSome = true) :
    (extractStandardISODate f).isSome = true := by
  unfold extractStandardISODate
  cases hs : scanFirst (matchFixedAt '-') f.data with
  | none => rw [hs] at h; exact absurd h (by simp)
  | some x =>
    obtain ⟨pre, full, rest, y, m, d, u⟩ := x
    dsimp only
    split
    · cases hr : scanFirst (matchLit full (mChar '-' (mDigitsAlts [2, 1] mEnd))) f.data with
      | none => rfl
      | some x2 => obtain ⟨p2, f2, r2, c2⟩ := x2; rfl
    · rfl

theorem extractUnderscoreDate_isSome {f : String}
    (h : (scanFirst (matchFixedAt '_') f.data).isSome = true) :
    (extractUnderscoreDate f).isSome = true := by
  unfold extractUnderscoreDate
  cases hs : scanFirst (matchFixedAt '_') f.data with
  | none => rw [hs] at h; exact absurd h (by simp)
  | some x => obtain ⟨pre, full, rest, y, m, d, u⟩ := x; rfl

theorem extractDotSeparatedDate_isSome {f : String}
    (h : (scanFirst (matchFixedAt '.') f.data).isSome = true) :
    (extractDotSeparatedDate f).isSome = true := by
  unfold extractDotSeparatedDate
  cases hs : scanFirst (matchFixedAt '.') f.data with
  | none => rw [hs] at h; exact absurd h (by simp)
  | some x => obtain ⟨pre, full, rest, y, m, d, u⟩ := x; rfl

/--
**C3.**  The chain tries the three strict fixed-width structural
recognizers (4-digit year, 2-digit month, 2-digit day joined by `-`,
`_` or `.`) before the day-first dot recognizer: on every file name
containing such a strict occurrence, `extractDateFromFilename` returns
exactly the first-success of the three structural recognizers (which
exists), so the day-first `d.m.yy[yy]` rule never fires on such names.
-/
theorem extractDateFromFilename_structural_first (cy : Nat) (f : String)
    (h : hasFixedYmd '-' f ∨ hasFixedYmd '_' f ∨ hasFixedYmd '.' f) :
    extractDateFromFilename cy f =
      ((extractStandardISODate f).orElse fun _ =>
        (extractUnderscoreDate f).orElse fun _ => extractDotSeparatedDate f) ∧
    (extractDateFromFilename cy f).isSome = true := by
  cases he1 : extractStandardISODate f with
  | some r =>
    constructor
    · unfold extractDateFromFilename
      rw [he1]
      rfl
    · unfold extractDateFromFilename
      rw [he1]
      rfl
  | none =>
    cases he2 : extractUnderscoreDate f with
    | some r =>
      constructor
      · unfold extractDateFromFilename
        rw [he1, he2]
        rfl
      · unfold extractDateFromFilename
        rw [he1, he2]
        rfl
    | none =>
      cases he3 : extractDotSeparatedDate f with
      | some r =>
        constructor
        · unfold extractDateFromFilename
          rw [he1, he2, he3]
          rfl
        · unfold extractDateFromFilename
          rw [he1, he2, he3]
          rfl
      | none =>
        exfalso
        rcases h with h | h | h
        · have := extractStandardISODate_isSome (scanFixed_isSome_of_hasFixedYmd h)
          rw [he1] at this
          exact absurd this (by simp)
        · have := extractUnderscoreDate_isSome (scanFixed_isSome_of_hasFixedYmd h)
          rw [he2] at this
          exact absurd this (by simp)
        · have := extractDotSeparatedDate_isSome (scanFixed_isSome_of_hasFixedYmd h)
          rw [he3] at this
          exact absurd this (by simp)

/-- Witness for C3: `"Plan_2022_06_12.docx"` contains a strict
underscore date, and the chain returns the structural recognizers'
first success on it. -/
theorem extractDateFromFilename_structural_first_witness :
    extractDateFromFilename 2025 ("Plan_2022_06_12.docx") =
      ((extractStandardISODate ("Plan_2022_06_12.docx")).orElse fun _ =>
        (extractUnderscoreDate ("Plan_2022_06_12.docx")).orElse fun _ =>
          extractDotSeparatedDate ("Plan_2022_06_12.docx")) ∧
    (extractDateFromFilename 2025 ("Plan_2022_06_12.docx")).isSome = true :=
  extractDateFromFilename_structural_first 2025 ("Plan_2022_06_12.docx")
    (Or.inr (Or.inl ⟨("Plan_").data, ("2022").data, ("06").data, ("12").data,
      (".docx").data, by decide, by decide, by decide, by decide, by decide,
      by decide, by decide⟩))

/-! ## Output shapes of the recognizers -/

/-- Exactly two digit characters (the output format of month and day). -/
def twoDigitString (s : String) : Prop :=
  s.data.length = 2 ∧ s.data.all Char.isDigit = true

/-- Exactly four digit characters. -/
def fourDigitString (s : String) : Prop :=
  s.data.length = 4 ∧ s.data.all Char.isDigit = true

/-- Every year string a recognizer can emit: four digits, or a digit
string whose numeric value is below 1900 (a 3-digit `\d{2,4}` capture
passed through unchanged — later rejected by `isValidDate`), or the
printed current year. -/
def yearShapeOf (cy : Nat) (y : String) : Prop :=
  fourDigitString y ∨ (∃ v, jsParseInt y = some v ∧ v < 1900) ∨ y = natToString cy

theorem GERMAN_MONTHS_val_twoDigit {key val : String}
    (h : (key, val) ∈ GERMAN_MONTHS) : twoDigitString val := by
  have hall : ∀ kv ∈ GERMAN_MONTHS,
      kv.2.data.length = 2 ∧ kv.2.data.all Char.isDigit = true := by decide
  exact hall (key, val) h

theorem padStart2_shape {l : List Char} (hlen : l.length = 1 ∨ l.length = 2)
    (hd : l.all Char.isDigit = true) :
    (padStart2 l).length = 2 ∧ (padStart2 l).all Char.isDigit = true := by
  unfold padStart2
  rcases hlen with h1 | h2
  · rw [if_neg (by omega)]
    have hrep : (List.replicate (2 - l.length) '0').all Char.isDigit = true := by
      rw [h1]; decide
    constructor
    · simp [h1]
    · simp only [List.all_append]
      simp [hrep, hd]
  · rw [if_pos (by omega)]
    exact ⟨h2, hd⟩

theorem mem_two_one {n : Nat} (h : n ∈ ([2, 1] : List Nat)) : n = 1 ∨ n = 2 := by
  rcases List.mem_cons.mp h with h2 | h1
  · exact Or.inr h2
  · rcases List.mem_cons.mp h1 with h1 | h0
    · exact Or.inl h1
    · exact absurd h0 (List.not_mem_nil n)

theorem mem_four_three_two {n : Nat} (h : n ∈ ([4, 3, 2] : List Nat)) :
    n = 2 ∨ n = 3 ∨ n = 4 := by
  rcases List.mem_cons.mp h with h4 | h1
  · exact Or.inr (Or.inr h4)
  · rcases List.mem_cons.mp h1 with h3 | h1
    · exact Or.inr (Or.inl h3)
    · rcases List.mem_cons.mp h1 with h2 | h0
      · exact Or.inl h2
      · exact absurd h0 (List.not_mem_nil n)

theorem string_mk_length (l : List Char) : (String.mk l).length = l.length := rfl

theorem normalizeYear_of_two {cy : Nat} {l : List Char}
    (hlen : l.length = 2) (hd : l.all Char.isDigit = true) :
    fourDigitString (normalizeYear cy ⟨l⟩) := by
  have hne : l ≠ [] := by intro h; rw [h] at hlen; exact absurd hlen (by decide)
  have hv := jsParseInt_of_digits hne hd
  have hlt : digitsToNat l < 100 := by
    have := digitsToNat_lt_pow hd
    rw [hlen] at this
    exact this
  unfold normalizeYear
  rw [if_neg (by rw [string_mk_length, hlen]; omega), hv]
  dsimp only
  split
  · exact natToString_four_digits (by omega) (by omega)
  · exact natToString_four_digits (by omega) (by omega)

theorem normalizeYear_passthrough {cy : Nat} {l : List Char} (h : l.length ≠ 2) :
    normalizeYear cy ⟨l⟩ = ⟨l⟩ := by
  unfold normalizeYear
  rw [if_pos (by rw [string_mk_length]; exact h)]

theorem smallValue_of_three {l : List Char} (hlen : l.length = 3)
    (hd : l.all Char.isDigit = true) :
    ∃ v, jsParseInt (⟨l⟩ : String) = some v ∧ v < 1900 := by
  have hne : l ≠ [] := by intro h; rw [h] at hlen; exact absurd hlen (by decide)
  refine ⟨digitsToNat l, jsParseInt_of_digits hne hd, ?_⟩
  have := digitsToNat_lt_pow hd
  rw [hlen] at this
  omega

theorem normalizeYear_yearShape {cy : Nat} {l : List Char}
    (hlen : l.length = 2 ∨ l.length = 3 ∨ l.length = 4)
    (hd : l.all Char.isDigit = true) :
    yearShapeOf cy (normalizeYear cy ⟨l⟩) := by
  rcases hlen with h2 | h3 | h4
  · exact Or.inl (normalizeYear_of_two h2 hd)
  · rw [normalizeYear_passthrough (by omega)]
    exact Or.inr (Or.inl (smallValue_of_three h3 hd))
  · rw [normalizeYear_passthrough (by omega)]
    exact Or.inl ⟨h4, hd⟩

theorem shapes_extractStandardISODate {f : String} {r : DateMatch}
    (h : extractStandardISODate f = some r) :
    twoDigitString r.month ∧ twoDigitString r.day ∧ yearShapeOf cy r.year := by
  unfold extractStandardISODate at h
  cases hscan : scanFirst (matchFixedAt '-') f.data with
  | none => rw [hscan] at h; exact absurd h (by simp)
  | some x =>
    obtain ⟨pre, full, rest, y, m, d, u⟩ := x
    rw [hscan] at h
    dsimp only at h
    have hq := scanFirst_sound
      (msound_mDigitsExact 4 (msound_mChar '-' (msound_mDigitsExact 2
        (msound_mChar '-' (msound_mDigitsExact 2 msound_mEnd)))))
      f.data pre full rest (y, (m, (d, u))) hscan
    obtain ⟨-, hy1, hy2, c1, -, c2, -, hm1, hm2, c3, -, c4, -, hd1, hd2, c5, -, -⟩ := hq
    split at h
    · cases hr : scanFirst (matchLit full (mChar '-' (mDigitsAlts [2, 1] mEnd))) f.data with
      | none =>
        rw [hr] at h
        dsimp only at h
        cases h
        exact ⟨⟨hm1, hm2⟩, ⟨hd1, hd2⟩, Or.inl ⟨hy1, hy2⟩⟩
      | some x2 =>
        obtain ⟨p2, f2, r2, c2'⟩ := x2
        rw [hr] at h
        dsimp only at h
        cases h
        exact ⟨⟨hm1, hm2⟩, ⟨hd1, hd2⟩, Or.inl ⟨hy1, hy2⟩⟩
    · cases h
      exact ⟨⟨hm1, hm2⟩, ⟨hd1, hd2⟩, Or.inl ⟨hy1, hy2⟩⟩

theorem shapes_extractUnderscoreDate {f : String} {r : DateMatch}
    (h : extractUnderscoreDate f = some r) :
    twoDigitString r.month ∧ twoDigitString r.day ∧ yearShapeOf cy r.year := by
  unfold extractUnderscoreDate at h
  cases hscan : scanFirst (matchFixedAt '_') f.data with
  | none => rw [hscan] at h; exact absurd h (by simp)
  | some x =>
    obtain ⟨pre, full, rest, y, m, d, u⟩ := x
    rw [hscan] at h
    dsimp only at h
    have hq := scanFirst_sound
      (msound_mDigitsExact 4 (msound_mChar '_' (msound_mDigitsExact 2
        (msound_mChar '_' (msound_mDigitsExact 2 msound_mEnd)))))
      f.data pre full rest (y, (m, (d, u))) hscan
    obtain ⟨-, hy1, hy2, c1, -, c2, -, hm1, hm2, c3, -, c4, -, hd1, hd2, c5, -, -⟩ := hq
    cases h
    exact ⟨⟨hm1, hm2⟩, ⟨hd1, hd2⟩, Or.inl ⟨hy1, hy2⟩⟩

theorem shapes_extractDotSeparatedDate {f : String} {r : DateMatch}
    (h : extractDotSeparatedDate f = some r) :
    twoDigitString r.month ∧ twoDigitString r.day ∧ yearShapeOf cy r.year := by
  unfold extractDotSeparatedDate at h
  cases hscan : scanFirst (matchFixedAt '.') f.data with
  | none => rw [hscan] at h; exact absurd h (by simp)
  | some x =>
    obtain ⟨pre, full, rest, y, m, d, u⟩ := x
    rw [hscan] at h
    dsimp only at h
    have hq := scanFirst_sound
      (msound_mDigitsExact 4 (msound_mChar '.' (msound_mDigitsExact 2
        (msound_mChar '.' (msound_mDigitsExact 2 msound_mEnd)))))
      f.data pre full rest (y, (m, (d, u))) hscan
    obtain ⟨-, hy1, hy2, c1, -, c2, -, hm1, hm2, c3, -, c4, -, hd1, hd2, c5, -, -⟩ := hq
    cases h
    exact ⟨⟨hm1, hm2⟩, ⟨hd1, hd2⟩, Or.inl ⟨hy1, hy2⟩⟩

theorem shapes_extractGermanStyleDate {cy : Nat} {f : String} {r : DateMatch}
    (h : extractGermanStyleDate cy f = some r) :
    twoDigitString r.month ∧ twoDigitString r.day ∧ yearShapeOf cy r.year := by
  unfold extractGermanStyleDate at h
  cases hscan : scanFirst matchGermanAt f.data with
  | none => rw [hscan] at h; exact absurd h (by simp)
  | some x =>
    obtain ⟨pre, full, rest, day, m, y, u⟩ := x
    rw [hscan] at h
    dsimp only at h
    have hq := scanFirst_sound
      (msound_mDigitsAlts [2, 1] (msound_mChar '.' (msound_mDigitsAlts [2, 1]
        (msound_mChar '.' (msound_mDigitsAlts [4, 3, 2] msound_mEnd)))))
      f.data pre full rest (day, (m, (y, u))) hscan
    obtain ⟨-, hday1, hday2, c1, -, c2, -, hm1, hm2, c3, -, c4, -, hy1, hy2, c5, -, -⟩ := hq
    cases h
    refine ⟨?_, ?_, ?_⟩
    · exact padStart2_shape (mem_two_one hm1) hm2
    · exact padStart2_shape (mem_two_one hday1) hday2
    · exact normalizeYear_yearShape (mem_four_three_two hy1) hy2

theorem shapes_extractSingleDigitDate {f : String} {r : DateMatch}
    (h : extractSingleDigitDate f = some r) :
    twoDigitString r.month ∧ twoDigitString r.day ∧ yearShapeOf cy r.year := by
  unfold extractSingleDigitDate at h
  cases hscan : scanFirst
      (mDigitsExact 4 (mChar '-' (mDigitsAlts [2, 1] (mChar '-' (mDigitsAlts [2, 1] mEnd)))))
      f.data with
  | none => rw [hscan] at h; exact absurd h (by simp)
  | some x =>
    obtain ⟨pre, full, rest, y, m, d, u⟩ := x
    rw [hscan] at h
    dsimp only at h
    have hq := scanFirst_sound
      (msound_mDigitsExact 4 (msound_mChar '-' (msound_mDigitsAlts [2, 1]
        (msound_mChar '-' (msound_mDigitsAlts [2, 1] msound_mEnd)))))
      f.data pre full rest (y, (m, (d, u))) hscan
    obtain ⟨-, hy1, hy2, c1, -, c2, -, hm1, hm2, c3, -, c4, -, hd1, hd2, c5, -, -⟩ := hq
    cases h
    exact ⟨padStart2_shape (mem_two_one hm1) hm2,
      padStart2_shape (mem_two_one hd1) hd2, Or.inl ⟨hy1, hy2⟩⟩

theorem shapes_extractComplexHyphenatedDate {cy : Nat} {f : String} {r : DateMatch}
    (h : extractComplexHyphenatedDate cy f = some r) :
    twoDigitString r.month ∧ twoDigitString r.day ∧ yearShapeOf cy r.year := by
  unfold extractComplexHyphenatedDate at h
  cases hscan : scanFirst
      (mDigitsAlts [2, 1] (mChar '-' (monthAlt GERMAN_MONTHS
        (mOpt (mChar '-' (mDigitsExact 2 mEnd))
          (mOpt (mChar '-' (mDigitsExact 4 mEnd)) mEnd)))))
      f.data with
  | none => rw [hscan] at h; exact absurd h (by simp)
  | some x =>
    obtain ⟨pre, full, rest, day, tok, val, optShort, optFull, u⟩ := x
    rw [hscan] at h
    dsimp only at h
    have hq := scanFirst_sound
      (msound_mDigitsAlts [2, 1] (msound_mChar '-' (msound_monthAlt GERMAN_MONTHS
        (msound_mOpt (msound_mChar '-' (msound_mDigitsExact 2 msound_mEnd))
          (msound_mOpt (msound_mChar '-' (msound_mDigitsExact 4 msound_mEnd)) msound_mEnd)))))
      f.data pre full rest (day, (tok, val, (optShort, (optFull, u)))) hscan
    obtain ⟨-, hday1, hday2, c1, -, c2, -, ⟨key, hkey, -⟩, c3, -, hopt1⟩ := hq
    have hval := GERMAN_MONTHS_val_twoDigit hkey
    have hdayp := padStart2_shape (mem_two_one hday1) hday2
    cases optFull with
    | some fyp =>
      obtain ⟨fy, u2⟩ := fyp
      have hfy : fy.length = 4 ∧ fy.all Char.isDigit = true := by
        cases optShort with
        | some syp =>
          obtain ⟨sy, u3⟩ := syp
          obtain ⟨d1, d2, -, -, hopt2⟩ := hopt1.1 (sy, u3) rfl
          obtain ⟨e1, e2, -, ⟨ee, -, hfy4, hfyd, -⟩, -⟩ := hopt2.1 (fy, u2) rfl
          exact ⟨hfy4, hfyd⟩
        | none =>
          have hopt2 := hopt1.2 rfl
          obtain ⟨e1, e2, -, ⟨ee, -, hfy4, hfyd, -⟩, -⟩ := hopt2.1 (fy, u2) rfl
          exact ⟨hfy4, hfyd⟩
      dsimp only at h
      cases h
      exact ⟨hval, hdayp, Or.inl hfy⟩
    | none =>
      cases optShort with
      | some syp =>
        obtain ⟨sy, u3⟩ := syp
        obtain ⟨d1, d2, -, ⟨dd, -, hsy2, hsyd, -⟩, -⟩ := hopt1.1 (sy, u3) rfl
        dsimp only at h
        cases h
        exact ⟨hval, hdayp, Or.inl (normalizeYear_of_two hsy2 hsyd)⟩
      | none =>
        dsimp only at h
        cases h
        exact ⟨hval, hdayp, Or.inr (Or.inr rfl)⟩

theorem shapes_extractGenericHyphenatedDate {cy : Nat} {f : String} {r : DateMatch}
    (h : extractGenericHyphenatedDate cy f = some r) :
    twoDigitString r.month ∧ twoDigitString r.day ∧ yearShapeOf cy r.year := by
  unfold extractGenericHyphenatedDate at h
  cases hscan : scanFirst
      (mDigitsAlts [2, 1] (mChar '-' (monthAlt GERMAN_MONTHS
        (mChar '-' (mDigitsAlts [4, 3, 2] mEnd)))))
      f.data with
  | some x =>
    obtain ⟨pre, full, rest, day, tok, val, year, u⟩ := x
    rw [hscan] at h
    dsimp only at h
    have hq := scanFirst_sound
      (msound_mDigitsAlts [2, 1] (msound_mChar '-' (msound_monthAlt GERMAN_MONTHS
        (msound_mChar '-' (msound_mDigitsAlts [4, 3, 2] msound_mEnd)))))
      f.data pre full rest (day, (tok, val, (year, u))) hscan
    obtain ⟨-, hday1, hday2, c1, -, c2, -, ⟨key, hkey, -⟩, c3, -, c4, -, hy1, hy2, c5, -, -⟩ := hq
    cases h
    refine ⟨GERMAN_MONTHS_val_twoDigit hkey,
      padStart2_shape (mem_two_one hday1) hday2, ?_⟩
    dsimp only
    split
    · exact Or.inl (normalizeYear_of_two (by assumption) hy2)
    · rcases mem_four_three_two hy1 with h2 | h3 | h4
      · exact absurd h2 (by assumption)
      · exact Or.inr (Or.inl (smallValue_of_three h3 hy2))
      · exact Or.inl ⟨h4, hy2⟩
  | none =>
    rw [hscan] at h
    dsimp only at h
    cases hscan2 : scanFirst
        (mDigitsAlts [2, 1] (greedyStar (fun c => toLowerJS c == 's') (monthAlt GERMAN_MONTHS
          (greedyStar (fun c => toLowerJS c == 's') (mDigitsAlts [4, 3, 2] mEnd)))))
        f.data with
    | none => rw [hscan2] at h; exact absurd h (by simp)
    | some x =>
      obtain ⟨pre, full, rest, day, run1, tok, val, run2, year, u⟩ := x
      rw [hscan2] at h
      dsimp only at h
      have hq := scanFirst_sound
        (msound_mDigitsAlts [2, 1] (msound_greedyStar _ (msound_monthAlt GERMAN_MONTHS
          (msound_greedyStar _ (msound_mDigitsAlts [4, 3, 2] msound_mEnd)))))
        f.data pre full rest (day, (run1, (tok, val, (run2, (year, u))))) hscan2
      obtain ⟨-, hday1, hday2, c1, -, -, c2, -, ⟨key, hkey, -⟩, c3, -, -, c4, -,
        hy1, hy2, c5, -, -⟩ := hq
      cases h
      exact ⟨GERMAN_MONTHS_val_twoDigit hkey,
        padStart2_shape (mem_two_one hday1) hday2,
        normalizeYear_yearShape (mem_four_three_two hy1) hy2⟩

theorem shapes_extractDateWithMonthName {cy : Nat} {f : String} {r : DateMatch}
    (h : extractDateWithMonthName cy f = some r) :
    twoDigitString r.month ∧ twoDigitString r.day ∧ yearShapeOf cy r.year := by
  unfold extractDateWithMonthName at h
  cases hscan : scanFirst
      (mDigitsAlts [2, 1] (greedyPlus isSepWsDotDash (monthAlt GERMAN_MONTHS
        (greedyPlus isSepWsDotDash (mDigitsAlts [4, 3, 2] mEnd)))))
      f.data with
  | some x =>
    obtain ⟨pre, full, rest, day, run1, tok, val, run2, year, u⟩ := x
    rw [hscan] at h
    dsimp only at h
    have hq := scanFirst_sound
      (msound_mDigitsAlts [2, 1] (msound_greedyPlus _ (msound_monthAlt GERMAN_MONTHS
        (msound_greedyPlus _ (msound_mDigitsAlts [4, 3, 2] msound_mEnd)))))
      f.data pre full rest (day, (run1, (tok, val, (run2, (year, u))))) hscan
    obtain ⟨-, hday1, hday2, c1, -, -, -, c2, -, ⟨key, hkey, -⟩, c3, -, -, -, c4, -,
      hy1, hy2, c5, -, -⟩ := hq
    cases h
    exact ⟨GERMAN_MONTHS_val_twoDigit hkey,
      padStart2_shape (mem_two_one hday1) hday2,
      normalizeYear_yearShape (mem_four_three_two hy1) hy2⟩
  | none =>
    rw [hscan] at h
    dsimp only at h
    cases hscan2 : scanFirst
        (monthAlt GERMAN_MONTHS (greedyPlus isSepLetterSDotDash (mDigitsExact 4 mEnd)))
        f.data with
    | none => rw [hscan2] at h; exact absurd h (by simp)
    | some x =>
      obtain ⟨pre, full, rest, tok, val, run, year, u⟩ := x
      rw [hscan2] at h
      dsimp only at h
      have hq := scanFirst_sound
        (msound_monthAlt GERMAN_MONTHS
          (msound_greedyPlus _ (msound_mDigitsExact 4 msound_mEnd)))
        f.data pre full rest (tok, val, (run, (year, u))) hscan2
      obtain ⟨-, ⟨key, hkey, -⟩, c1, -, -, -, c2, -, hy1, hy2, c3, -, -⟩ := hq
      cases h
      exact ⟨GERMAN_MONTHS_val_twoDigit hkey, ⟨rfl, rfl⟩, Or.inl ⟨hy1, hy2⟩⟩

theorem matchYearTokAt_shape {prev : Option Char} {s t : List Char}
    (h : matchYearTokAt prev s = some t) :
    t.length = 4 ∧ t.all Char.isDigit = true := by
  unfold matchYearTokAt at h
  cases s with
  | nil => exact absurd h (by simp)
  | cons c1 s1 =>
    cases s1 with
    | nil => exact absurd h (by simp)
    | cons c2 s2 =>
      cases s2 with
      | nil => exact absurd h (by simp)
      | cons c3 s3 =>
        cases s3 with
        | nil => exact absurd h (by simp)
        | cons c4 s4 =>
          dsimp only at h
          cases hcond : (prev.all fun c => !isWordCharJS c)
              && ((c1 == '1' && c2 == '9') || (c1 == '2' && c2 == '0'))
              && c3.isDigit && c4.isDigit && nextNonWord s4 with
          | false =>
            rw [if_neg (by simp [hcond])] at h
            exact absurd h (by simp)
          | true =>
            rw [if_pos hcond] at h
            cases h
            simp only [Bool.and_eq_true] at hcond
            obtain ⟨⟨⟨⟨ha, hb12⟩, h3⟩, h4⟩, he⟩ := hcond
            simp only [Bool.or_eq_true, Bool.and_eq_true, beq_iff_eq] at hb12
            refine ⟨rfl, ?_⟩
            simp only [List.all_cons, List.all_nil, Bool.and_eq_true]
            rcases hb12 with ⟨rfl, rfl⟩ | ⟨rfl, rfl⟩ <;>
              exact ⟨by decide, by decide, h3, h4, trivial⟩

theorem findYearTokAux_shape : ∀ (prev : Option Char) (s t : List Char),
    findYearTokAux prev s = some t → t.length = 4 ∧ t.all Char.isDigit = true := by
  intro prev s
  induction s generalizing prev with
  | nil => intro t h; exact matchYearTokAt_shape h
  | cons c cs ih =>
    intro t h
    unfold findYearTokAux at h
    cases hm : matchYearTokAt prev (c :: cs) with
    | some t' => rw [hm] at h; cases h; exact matchYearTokAt_shape hm
    | none => rw [hm] at h; exact ih (some c) t h

theorem shapes_extractPartialDateSpecial {f : String} {r : DateMatch}
    (h : extractPartialDateSpecial f = some r) :
    twoDigitString r.month ∧ twoDigitString r.day ∧ yearShapeOf cy r.year := by
  unfold extractPartialDateSpecial at h
  cases hscan : scanFirst
      (mDigitsAlts [2, 1] (mChar '.' (mChar ' ' (monthAlt GERMAN_MONTHS
        (mChar ' ' (mDigitsExact 4 mEnd))))))
      f.data with
  | none => rw [hscan] at h; exact absurd h (by simp)
  | some x =>
    obtain ⟨pre, full, rest, day, tok, val, year, u⟩ := x
    rw [hscan] at h
    dsimp only at h
    have hq := scanFirst_sound
      (msound_mDigitsAlts [2, 1] (msound_mChar '.' (msound_mChar ' '
        (msound_monthAlt GERMAN_MONTHS (msound_mChar ' '
          (msound_mDigitsExact 4 msound_mEnd))))))
      f.data pre full rest (day, (tok, val, (year, u))) hscan
    obtain ⟨-, hday1, hday2, c1, -, c2, -, c3, -, ⟨key, hkey, -⟩, c4, -, c5, -,
      hy1, hy2, c6, -, -⟩ := hq
    cases h
    exact ⟨GERMAN_MONTHS_val_twoDigit hkey,
      padStart2_shape (mem_two_one hday1) hday2, Or.inl ⟨hy1, hy2⟩⟩

theorem shapes_extractPartialDate {cy : Nat} {f : String} {r : DateMatch}
    (h : extractPartialDate cy f = some r) :
    twoDigitString r.month ∧ twoDigitString r.day ∧ yearShapeOf cy r.year := by
  unfold extractPartialDate at h
  cases hscan : scanFirst matchPartialAt f.data with
  | none =>
    rw [hscan] at h
    dsimp only at h
    exact shapes_extractPartialDateSpecial h
  | some x =>
    obtain ⟨pre, full, rest, day, month, optY, u⟩ := x
    rw [hscan] at h
    dsimp only at h
    have hq := scanFirst_sound
      (msound_mDigitsAlts [2, 1] (msound_mChar '.' (msound_mDigitsAlts [2, 1]
        (msound_mChar '.' (msound_mOpt
          (msound_greedyPlus _ (msound_mDigitsExact 4 msound_mEnd)) msound_mEnd)))))
      f.data pre full rest (day, (month, (optY, u))) hscan
    obtain ⟨-, hday1, hday2, c1, -, c2, -, hmon1, hmon2, c3, -, c4, -, hopt⟩ := hq
    have hdayp := padStart2_shape (mem_two_one hday1) hday2
    have hmonp := padStart2_shape (mem_two_one hmon1) hmon2
    cases optY with
    | some yp =>
      obtain ⟨run, yr, u2⟩ := yp
      obtain ⟨d1, d2, -, ⟨-, -, e1, -, hy4, hyd, -⟩, -⟩ := hopt.1 (run, (yr, u2)) rfl
      dsimp only at h
      cases h
      exact ⟨hmonp, hdayp, Or.inl ⟨hy4, hyd⟩⟩
    | none =>
      dsimp only at h
      cases hfy : findYearToken f.data with
      | some ytok =>
        rw [hfy] at h
        cases h
        obtain ⟨hy4, hyd⟩ := findYearTokAux_shape none f.data ytok hfy
        exact ⟨hmonp, hdayp, Or.inl ⟨hy4, hyd⟩⟩
      | none =>
        rw [hfy] at h
        cases h
        exact ⟨hmonp, hdayp, Or.inr (Or.inr rfl)⟩

/-- Every successful extraction, whichever recognizer fired, yields a
two-digit month, a two-digit day, and a year of one of the three
possible shapes. -/
theorem extract_shapes {cy : Nat} {f : String} {r : DateMatch}
    (h : extractDateFromFilename cy f = some r) :
    twoDigitString r.month ∧ twoDigitString r.day ∧ yearShapeOf cy r.year := by
  unfold extractDateFromFilename at h
  cases h1 : extractStandardISODate f with
  | some r1 => rw [h1] at h; cases h; exact shapes_extractStandardISODate h1
  | none =>
  rw [h1] at h; dsimp only at h
  cases h2 : extractUnderscoreDate f with
  | some r2 => rw [h2] at h; cases h; exact shapes_extractUnderscoreDate h2
  | none =>
  rw [h2] at h; dsimp only at h
  cases h3 : extractDotSeparatedDate f with
  | some r3 => rw [h3] at h; cases h; exact shapes_extractDotSeparatedDate h3
  | none =>
  rw [h3] at h; dsimp only at h
  cases h4 : extractGermanStyleDate cy f with
  | some r4 => rw [h4] at h; cases h; exact shapes_extractGermanStyleDate h4
  | none =>
  rw [h4] at h; dsimp only at h
  cases h5 : extractSingleDigitDate f with
  | some r5 => rw [h5] at h; cases h; exact shapes_extractSingleDigitDate h5
  | none =>
  rw [h5] at h; dsimp only at h
  cases h6 : extractComplexHyphenatedDate cy f with
  | some r6 => rw [h6] at h; cases h; exact shapes_extractComplexHyphenatedDate h6
  | none =>
  rw [h6] at h; dsimp only at h
  cases h7 : extractGenericHyphenatedDate cy f with
  | some r7 => rw [h7] at h; cases h; exact shapes_extractGenericHyphenatedDate h7
  | none =>
  rw [h7] at h; dsimp only at h
  cases h8 : extractDateWithMonthName cy f with
  | some r8 => rw [h8] at h; cases h; exact shapes_extractDateWithMonthName h8
  | none =>
  rw [h8] at h; dsimp only at h
  exact shapes_extractPartialDate h

/--
**C10.**  Output-format invariant kept by every recognizer: whenever
`extractDateFromFilename` returns a match, the month and the day of the
result are each strings of exactly two digit characters (single-digit
captures are zero-padded before the result is returned).
-/
theorem extractDateFromFilename_two_digit_fields :
    ∀ (cy : Nat) (f : String) (r : DateMatch), extractDateFromFilename cy f = some r →
      twoDigitString r.month ∧ twoDigitString r.day :=
  fun _ _ _ h => ⟨(extract_shapes h).1, (extract_shapes h).2.1⟩

/-- Witness for C10 at a concrete extraction (single-digit day and
month of `"x 1.2.03"` are zero-padded). -/
theorem extractDateFromFilename_two_digit_fields_witness :
    twoDigitString (DateMatch.mk ("2003") ("02") ("01") ("x")
        ("German Style Date: [d]d.[m]m.[yy]yy")).month ∧
    twoDigitString (DateMatch.mk ("2003") ("02") ("01") ("x")
        ("German Style Date: [d]d.[m]m.[yy]yy")).day :=
  extractDateFromFilename_two_digit_fields 2025 ("x 1.2.03") _ rfl

/-! ## Claim C6: names with a canonical date prefix are left alone -/

theorem isValidDate_year_bounds {cy : Nat} {y m d : String}
    (h : isValidDate cy y m d = true) :
    ∃ v, jsParseInt y = some v ∧ 1900 ≤ v ∧ v ≤ cy := by
  unfold isValidDate at h
  cases hpy : jsParseInt y with
  | none => rw [hpy] at h; exact absurd h (by simp)
  | some v =>
    rw [hpy] at h
    cases hpm : jsParseInt m with
    | none => rw [hpm] at h; exact absurd h (by simp)
    | some vm =>
      rw [hpm] at h
      cases hpd : jsParseInt d with
      | none => rw [hpd] at h; exact absurd h (by simp)
      | some vd =>
        rw [hpd] at h
        dsimp only at h
        split at h
        · exact absurd h (by simp)
        · rename_i hguard
          simp only [Bool.or_eq_true, decide_eq_true_eq, not_or] at hguard
          exact ⟨v, rfl, by omega, by omega⟩

/-- A valid year string whose shape came from a recognizer is four
digits (given a plausibly-printed current year). -/
theorem year_fourDigit_of_valid {cy : Nat} {y m d : String}
    (h1000 : 1000 ≤ cy) (h9999 : cy ≤ 9999)
    (hshape : yearShapeOf cy y) (hvalid : isValidDate cy y m d = true) :
    fourDigitString y := by
  rcases hshape with h4 | ⟨v, hp, hlt⟩ | hcy
  · exact h4
  · obtain ⟨v', hp', h1900, -⟩ := isValidDate_year_bounds hvalid
    rw [hp] at hp'
    cases hp'
    omega
  · rw [hcy]
    exact natToString_four_digits h1000 h9999

/-- The data of the canonical name `y-m-d rest` in the split shape the
fixed-width matcher consumes. -/
theorem canonical_name_data (y m d rest : String) :
    (y ++ "-" ++ m ++ "-" ++ d ++ " " ++ rest).data =
      y.data ++ '-' :: (m.data ++ '-' :: (d.data ++ (' ' :: rest.data))) := by
  simp only [String.data_append]
  simp [List.append_assoc]

theorem matchFixedAt_canonical {y m d rest : String}
    (hy : fourDigitString y) (hm : twoDigitString m) (hd : twoDigitString d) :
    (matchFixedAt '-' (y ++ "-" ++ m ++ "-" ++ d ++ " " ++ rest).data).isSome = true := by
  rw [canonical_name_data]
  exact matchFixedAt_complete '-' y.data m.data d.data (' ' :: rest.data)
    hy.1 hy.2 hm.1 hm.2 hd.1 hd.2

/-- The per-file decision never renames a file whose name already
starts with a `yyyy-mm-dd` prefix: in every path of the decision (no
extraction, invalid date, prefix skip, no-op skip) the outcome is
`none`. -/
theorem processFilename_skips_formatted (cy : Nat) (old : String)
    (hfmt : (matchFixedAt '-' old.data).isSome = true) :
    processFilename cy old = none := by
  unfold processFilename
  dsimp only
  cases he : extractDateFromFilename cy old with
  | none => rfl
  | some r =>
    dsimp only
    by_cases hv : isValidDate cy r.year r.month r.day = false
    · rw [if_pos hv]
    · rw [if_neg hv, if_pos hfmt]

/--
**C6.**  Normalization is idempotent at the name level: a name already
beginning with a `yyyy-mm-dd` prefix is never renamed (first
conjunct), and any name the decision does produce starts with such a
prefix, so a second run over the renamed output produces no further
renames (second conjunct).
-/
theorem processFilename_idempotent (cy : Nat) (old new : String)
    (h1000 : 1000 ≤ cy) (h9999 : cy ≤ 9999) :
    ((matchFixedAt '-' old.data).isSome = true → processFilename cy old = none) ∧
    (processFilename cy old = some new → processFilename cy new = none) := by
  constructor
  · exact processFilename_skips_formatted cy old
  · intro hsome
    unfold processFilename at hsome
    dsimp only at hsome
    cases he : extractDateFromFilename cy old with
    | none => rw [he] at hsome; exact absurd hsome (by simp)
    | some r =>
      rw [he] at hsome
      dsimp only at hsome
      by_cases hv : isValidDate cy r.year r.month r.day = false
      · rw [if_pos hv] at hsome; exact absurd hsome (by simp)
      · rw [if_neg hv] at hsome
        by_cases hfmt : (matchFixedAt '-' old.data).isSome = true
        · rw [if_pos hfmt] at hsome; exact absurd hsome (by simp)
        · rw [if_neg hfmt] at hsome
          by_cases heq : old = r.year ++ "-" ++ r.month ++ "-" ++ r.day ++ " " ++ r.restOfFilename
          · rw [if_pos heq] at hsome; exact absurd hsome (by simp)
          · rw [if_neg heq] at hsome
            cases hsome
            have hvalid : isValidDate cy r.year r.month r.day = true := by
              cases hb : isValidDate cy r.year r.month r.day
              · exact absurd hb hv
              · rfl
            obtain ⟨hmonth, hday, hyear⟩ := extract_shapes he
            exact processFilename_skips_formatted cy _
              (matchFixedAt_canonical
                (year_fourDigit_of_valid h1000 h9999 hyear hvalid) hmonth hday)

/-- Witness for C6: the spec's example name is renamed once, and the
result is a fixed point. -/
theorem processFilename_idempotent_witness :
    processFilename 2025 ("Protokoll - 15.03.2025.docx") =
      some ("2025-03-15 Protokoll.docx") ∧
    processFilename 2025 ("2025-03-15 Protokoll.docx") = none :=
  ⟨rfl, (processFilename_idempotent 2025 ("Protokoll - 15.03.2025.docx")
      ("2025-03-15 Protokoll.docx") (by omega) (by omega)).2 rfl⟩

/-! ## Claim C8: months only from the German month vocabulary -/

/-- The month of the result was derived from an alphabetic token of the
file name: some non-empty token occurring in the name lowercases
exactly to a key of `GERMAN_MONTHS`, and the month is that key's
value. -/
def MonthFromVocab (f : String) (r : DateMatch) : Prop :=
  ∃ tok key val, tok ≠ [] ∧ tok.map toLowerJS = key.data ∧
    (key, val) ∈ GERMAN_MONTHS ∧ r.month = val ∧ tok <:+: f.data

theorem GERMAN_MONTHS_key_nonempty {key val : String}
    (h : (key, val) ∈ GERMAN_MONTHS) : key.data ≠ [] := by
  have hall : ∀ kv ∈ GERMAN_MONTHS, kv.1.data ≠ [] := by decide
  exact hall (key, val) h

theorem tok_ne_nil_of_map {tok : List Char} {key : String}
    (hmap : tok.map toLowerJS = key.data) (hne : key.data ≠ []) : tok ≠ [] := by
  intro h
  rw [h] at hmap
  exact hne hmap.symm

theorem monthVocab_extractComplexHyphenatedDate {cy : Nat} {f : String} {r : DateMatch}
    (h : extractComplexHyphenatedDate cy f = some r) : MonthFromVocab f r := by
  unfold extractComplexHyphenatedDate at h
  cases hscan : scanFirst
      (mDigitsAlts [2, 1] (mChar '-' (monthAlt GERMAN_MONTHS
        (mOpt (mChar '-' (mDigitsExact 2 mEnd))
          (mOpt (mChar '-' (mDigitsExact 4 mEnd)) mEnd)))))
      f.data with
  | none => rw [hscan] at h; exact absurd h (by simp)
  | some x =>
    obtain ⟨pre, full, rest, day, tok, val, optShort, optFull, u⟩ := x
    rw [hscan] at h
    dsimp only at h
    cases h
    have hq := scanFirst_sound
      (msound_mDigitsAlts [2, 1] (msound_mChar '-' (msound_monthAlt GERMAN_MONTHS
        (msound_mOpt (msound_mChar '-' (msound_mDigitsExact 2 msound_mEnd))
          (msound_mOpt (msound_mChar '-' (msound_mDigitsExact 4 msound_mEnd)) msound_mEnd)))))
      f.data pre full rest (day, (tok, val, (optShort, (optFull, u)))) hscan
    obtain ⟨hsplit, -, -, c1, hc1, c2, hc2, ⟨key, hkey, hmap⟩, c3, hc3, -⟩ := hq
    refine ⟨tok, key, val,
      tok_ne_nil_of_map hmap (GERMAN_MONTHS_key_nonempty hkey), hmap, hkey, rfl, ?_⟩
    refine ⟨pre ++ (day ++ ['-']), c3 ++ rest, ?_⟩
    rw [hsplit, hc1, hc2, hc3]
    simp [List.append_assoc]

theorem monthVocab_extractGenericHyphenatedDate {cy : Nat} {f : String} {r : DateMatch}
    (h : extractGenericHyphenatedDate cy f = some r) : MonthFromVocab f r := by
  unfold extractGenericHyphenatedDate at h
  cases hscan : scanFirst
      (mDigitsAlts [2, 1] (mChar '-' (monthAlt GERMAN_MONTHS
        (mChar '-' (mDigitsAlts [4, 3, 2] mEnd)))))
      f.data with
  | some x =>
    obtain ⟨pre, full, rest, day, tok, val, year, u⟩ := x
    rw [hscan] at h
    dsimp only at h
    cases h
    have hq := scanFirst_sound
      (msound_mDigitsAlts [2, 1] (msound_mChar '-' (msound_monthAlt GERMAN_MONTHS
        (msound_mChar '-' (msound_mDigitsAlts [4, 3, 2] msound_mEnd)))))
      f.data pre full rest (day, (tok, val, (year, u))) hscan
    obtain ⟨hsplit, -, -, c1, hc1, c2, hc2, ⟨key, hkey, hmap⟩, c3, hc3, -⟩ := hq
    refine ⟨tok, key, val,
      tok_ne_nil_of_map hmap (GERMAN_MONTHS_key_nonempty hkey), hmap, hkey, rfl, ?_⟩
    refine ⟨pre ++ (day ++ ['-']), c3 ++ rest, ?_⟩
    rw [hsplit, hc1, hc2, hc3]
    simp [List.append_assoc]
  | none =>
    rw [hscan] at h
    dsimp only at h
    cases hscan2 : scanFirst
        (mDigitsAlts [2, 1] (greedyStar (fun c => toLowerJS c == 's') (monthAlt GERMAN_MONTHS
          (greedyStar (fun c => toLowerJS c == 's') (mDigitsAlts [4, 3, 2] mEnd)))))
        f.data with
    | none => rw [hscan2] at h; exact absurd h (by simp)
    | some x =>
      obtain ⟨pre, full, rest, day, run1, tok, val, run2, year, u⟩ := x
      rw [hscan2] at h
      dsimp only at h
      cases h
      have hq := scanFirst_sound
        (msound_mDigitsAlts [2, 1] (msound_greedyStar _ (msound_monthAlt GERMAN_MONTHS
          (msound_greedyStar _ (msound_mDigitsAlts [4, 3, 2] msound_mEnd)))))
        f.data pre full rest (day, (run1, (tok, val, (run2, (year, u))))) hscan2
      obtain ⟨hsplit, -, -, c1, hc1, -, c2, hc2, ⟨key, hkey, hmap⟩, c3, hc3, -⟩ := hq
      refine ⟨tok, key, val,
        tok_ne_nil_of_map hmap (GERMAN_MONTHS_key_nonempty hkey), hmap, hkey, rfl, ?_⟩
      refine ⟨pre ++ (day ++ run1), c3 ++ rest, ?_⟩
      rw [hsplit, hc1, hc2, hc3]
      simp [List.append_assoc]

theorem monthVocab_extractDateWithMonthName {cy : Nat} {f : String} {r : DateMatch}
    (h : extractDateWithMonthName cy f = some r) : MonthFromVocab f r := by
  unfold extractDateWithMonthName at h
  cases hscan : scanFirst
      (mDigitsAlts [2, 1] (greedyPlus isSepWsDotDash (monthAlt GERMAN_MONTHS
        (greedyPlus isSepWsDotDash (mDigitsAlts [4, 3, 2] mEnd)))))
      f.data with
  | some x =>
    obtain ⟨pre, full, rest, day, run1, tok, val, run2, year, u⟩ := x
    rw [hscan] at h
    dsimp only at h
    cases h
    have hq := scanFirst_sound
      (msound_mDigitsAlts [2, 1] (msound_greedyPlus _ (msound_monthAlt GERMAN_MONTHS
        (msound_greedyPlus _ (msound_mDigitsAlts [4, 3, 2] msound_mEnd)))))
      f.data pre full rest (day, (run1, (tok, val, (run2, (year, u))))) hscan
    obtain ⟨hsplit, -, -, c1, hc1, -, -, c2, hc2, ⟨key, hkey, hmap⟩, c3, hc3, -⟩ := hq
    refine ⟨tok, key, val,
      tok_ne_nil_of_map hmap (GERMAN_MONTHS_key_nonempty hkey), hmap, hkey, rfl, ?_⟩
    refine ⟨pre ++ (day ++ run1), c3 ++ rest, ?_⟩
    rw [hsplit, hc1, hc2, hc3]
    simp [List.append_assoc]
  | none =>
    rw [hscan] at h
    dsimp only at h
    cases hscan2 : scanFirst
        (monthAlt GERMAN_MONTHS (greedyPlus isSepLetterSDotDash (mDigitsExact 4 mEnd)))
        f.data with
    | none => rw [hscan2] at h; exact absurd h (by simp)
    | some x =>
      obtain ⟨pre, full, rest, tok, val, run, year, u⟩ := x
      rw [hscan2] at h
      dsimp only at h
      cases h
      have hq := scanFirst_sound
        (msound_monthAlt GERMAN_MONTHS
          (msound_greedyPlus _ (msound_mDigitsExact 4 msound_mEnd)))
        f.data pre full rest (tok, val, (run, (year, u))) hscan2
      obtain ⟨hsplit, ⟨key, hkey, hmap⟩, c1, hc1, -⟩ := hq
      refine ⟨tok, key, val,
        tok_ne_nil_of_map hmap (GERMAN_MONTHS_key_nonempty hkey), hmap, hkey, rfl, ?_⟩
      refine ⟨pre, c1 ++ rest, ?_⟩
      rw [hsplit, hc1]
      simp [List.append_assoc]

theorem monthVocab_extractPartialDateSpecial {f : String} {r : DateMatch}
    (h : extractPartialDateSpecial f = some r) : MonthFromVocab f r := by
  unfold extractPartialDateSpecial at h
  cases hscan : scanFirst
      (mDigitsAlts [2, 1] (mChar '.' (mChar ' ' (monthAlt GERMAN_MONTHS
        (mChar ' ' (mDigitsExact 4 mEnd))))))
      f.data with
  | none => rw [hscan] at h; exact absurd h (by simp)
  | some x =>
    obtain ⟨pre, full, rest, day, tok, val, year, u⟩ := x
    rw [hscan] at h
    dsimp only at h
    cases h
    have hq := scanFirst_sound
      (msound_mDigitsAlts [2, 1] (msound_mChar '.' (msound_mChar ' '
        (msound_monthAlt GERMAN_MONTHS (msound_mChar ' '
          (msound_mDigitsExact 4 msound_mEnd))))))
      f.data pre full rest (day, (tok, val, (year, u))) hscan
    obtain ⟨hsplit, -, -, c1, hc1, c2, hc2, c3, hc3, ⟨key, hkey, hmap⟩, c4, hc4, -⟩ := hq
    refine ⟨tok, key, val,
      tok_ne_nil_of_map hmap (GERMAN_MONTHS_key_nonempty hkey), hmap, hkey, rfl, ?_⟩
    refine ⟨pre ++ (day ++ ['.', ' ']), c4 ++ rest, ?_⟩
    rw [hsplit, hc1, hc2, hc3, hc4]
    simp [List.append_assoc]

/--
**C8.**  Whenever a recognizer derives a month from an alphabetic
token, the token is a non-empty substring of the file name whose
lowercased form exactly matches a key of the fixed `GERMAN_MONTHS`
vocabulary, and the month returned is that key's value — a token not
in the vocabulary is never interpreted as a month.  This holds for
every recognizer that reads month names: the two hyphenated forms, the
month-name recognizer (both branches) and the `"d. month yyyy"`
special case of the partial-date recognizer.
-/
theorem month_tokens_from_vocabulary :
    (∀ (cy : Nat) (f : String) (r : DateMatch),
      extractComplexHyphenatedDate cy f = some r → MonthFromVocab f r) ∧
    (∀ (cy : Nat) (f : String) (r : DateMatch),
      extractGenericHyphenatedDate cy f = some r → MonthFromVocab f r) ∧
    (∀ (cy : Nat) (f : String) (r : DateMatch),
      extractDateWithMonthName cy f = some r → MonthFromVocab f r) ∧
    (∀ (f : String) (r : DateMatch),
      extractPartialDateSpecial f = some r → MonthFromVocab f r) :=
  ⟨fun _ _ _ h => monthVocab_extractComplexHyphenatedDate h,
   fun _ _ _ h => monthVocab_extractGenericHyphenatedDate h,
   fun _ _ _ h => monthVocab_extractDateWithMonthName h,
   fun _ _ h => monthVocab_extractPartialDateSpecial h⟩

/-- Witness for C8: the month `"05"` extracted from `"1-Mai-2024 x"`
comes from the vocabulary token `"Mai"`. -/
theorem month_tokens_from_vocabulary_witness :
    MonthFromVocab ("1-Mai-2024 x")
      (DateMatch.mk ("2020") ("05") ("01") ("24 x")
        ("Hyphenated Date with month name: [d]d-month-yy-yyyy")) :=
  month_tokens_from_vocabulary.1 2025 ("1-Mai-2024 x") _ rfl

/-- Witness for C9, applying the theorem at the spec's example name. -/
theorem extractDateFromFilename_none_iff_witness :
    extractDateFromFilename 2025 ("Notes Sep.txt") = none :=
  extractDateFromFilename_none_iff.2 2025
